import Mathlib

/-!
Verification of the findings pipeline of the ai-code-reviewer-bot repository.

JavaScript strings are modelled as lists of characters (`Str`), JS numbers
occurring as line counters as integers, and embedding vectors as lists of
real numbers.  JS `Array.prototype.sort`, which is specified to be a stable
comparator sort, is modelled by `List.insertionSort` (a stable sort) over the
ordering induced by the comparator.  JS `Map` is modelled by an association
list with insert-or-update-in-place, which matches the insertion-order
semantics of `Map` iteration.
-/

/-- A JavaScript string, modelled as its sequence of characters. -/
abbrev Str := List Char

/-- Finding categories, from `src/aggregator.ts`. -/
inductive Category where
  | bug | security | performance | style | docs | test
deriving DecidableEq, Inhabited

/-- Finding severities, from `src/aggregator.ts`. -/
inductive Severity where
  | high | medium | low
deriving DecidableEq, Inhabited

/-- The `Finding` record type of `src/aggregator.ts`. -/
structure Finding where
  path : Str
  start_line : Int
  end_line : Int
  category : Category
  title : Str
  rationale : Str
  suggestion : Option Str
  severity : Severity
  references : Option (List Str) := none
deriving DecidableEq, Inhabited

/-- JS `<` on strings: lexicographic comparison of character sequences. -/
def strLt : Str → Str → Bool
  | [], [] => false
  | [], _ :: _ => true
  | _ :: _, [] => false
  | c :: cs, d :: ds => if c < d then true else if d < c then false else strLt cs ds

/-- JS `String.prototype.split("\n")`. -/
def splitNl : Str → List Str
  | [] => [[]]
  | c :: rest =>
    match splitNl rest with
    | [] => [[c]]
    | s :: ss => if c = '\n' then [] :: s :: ss else (c :: s) :: ss

/-- JS `s.replace(/\r\n/g, "\n")`. -/
def replaceCRLF : Str → Str
  | [] => []
  | '\r' :: '\n' :: rest => '\n' :: replaceCRLF rest
  | c :: rest => c :: replaceCRLF rest

/-- Whitespace characters recognised by JS `trim`. -/
def isJsSpace (c : Char) : Bool :=
  c = ' ' || c = '\t' || c = '\n' || c = '\r' || c = '\x0b' || c = '\x0c'

/-- JS `String.prototype.trim`. -/
def jsTrim (s : Str) : Str :=
  ((s.dropWhile isJsSpace).reverse.dropWhile isJsSpace).reverse

/-- Decimal digit character for a value below ten. -/
def digitChar (n : Nat) : Char := Char.ofNat (48 + n)

/-- Decimal rendering of a natural number (fuel-based structural recursion). -/
def natToStrAux : Nat → Nat → Str
  | 0, _ => []
  | fuel + 1, n => if n < 10 then [digitChar n] else natToStrAux fuel (n / 10) ++ [digitChar (n % 10)]

/-- Decimal rendering of a natural number, as JS renders integral numbers. -/
def natToStr (n : Nat) : Str := natToStrAux (n + 1) n

/-- Decimal rendering of an integer, as JS string interpolation renders it. -/
def intToStr (i : Int) : Str :=
  if i < 0 then '-' :: natToStr (-i).toNat else natToStr i.toNat

/-- Severity weights from `src/aggregator.ts`: high=3, medium=2, low=1. -/
def sevWeight : Severity → Nat
  | .high => 3
  | .medium => 2
  | .low => 1

/-- Category weights from `src/aggregator.ts`. -/
def catWeight : Category → Nat
  | .security => 4
  | .bug => 3
  | .performance => 2
  | .test => 2
  | .docs => 1
  | .style => 1

/-- The `score` function of `src/aggregator.ts`. -/
def score (f : Finding) : Nat := sevWeight f.severity * 10 + catWeight f.category

/-- The dedupe key of `aggregateFindings`:
the string `path : start_line : lowercased title truncated to 60 chars`,
interpolated with `:` separators exactly as in the source. -/
def dedupeKey (f : Finding) : Str :=
  f.path ++ ':' :: intToStr f.start_line ++ ':' :: (f.title.map Char.toLower).take 60

/-- JS `Map.prototype.set`: update the value in place if the key is present,
otherwise append the binding (insertion order is preserved). -/
def mapSet (m : List (Str × Finding)) (k : Str) (v : Finding) : List (Str × Finding) :=
  match m with
  | [] => [(k, v)]
  | (k', v') :: rest => if k' = k then (k', v) :: rest else (k', v') :: mapSet rest k v

/-- JS `Map.prototype.get`. -/
def lookupKey (m : List (Str × Finding)) (k : Str) : Option Finding :=
  (m.find? (fun kv => kv.1 = k)).map (fun kv => kv.2)

/-- One iteration of the dedupe loop of `aggregateFindings`: insert the
finding under its key, keeping the stronger (strictly higher-scored) one on
a collision. -/
def dedupeStep (m : List (Str × Finding)) (f : Finding) : List (Str × Finding) :=
  match lookupKey m (dedupeKey f) with
  | none => mapSet m (dedupeKey f) f
  | some existing => if score f > score existing then mapSet m (dedupeKey f) f else m

/-- The sort comparator of `aggregateFindings`: descending score, then path
ascending (JS string `<`), then start line ascending. -/
def cmpFinding (a b : Finding) : Int :=
  if score a ≠ score b then (score b : Int) - (score a : Int)
  else if a.path ≠ b.path then (if strLt a.path b.path then -1 else 1)
  else a.start_line - b.start_line

/-- The ordering induced by the comparator: `a` sorts no later than `b`. -/
def sortLe (a b : Finding) : Prop := cmpFinding a b ≤ 0

instance : DecidableRel sortLe := fun a b => inferInstanceAs (Decidable (cmpFinding a b ≤ 0))

/-- The severity counts returned by `aggregateFindings`. -/
structure Counts where
  high : Nat
  medium : Nat
  low : Nat
  total : Nat
deriving DecidableEq

/-- The result record of `aggregateFindings`. -/
structure AggregateResult where
  top : List Finding
  counts : Counts
deriving DecidableEq

/-- The `aggregateFindings` function of `src/aggregator.ts`: dedupe by key
keeping the stronger finding, sort by the comparator, cap to `max`, and
count severities of the capped list. -/
def aggregateFindings (all : List Finding) (max : Nat := 10) : AggregateResult :=
  let seen := all.foldl dedupeStep []
  let arr := seen.map (fun kv => kv.2)
  let sorted := List.insertionSort sortLe arr
  let top := sorted.take max
  { top := top
    counts :=
      { high := (top.filter (fun f => f.severity = .high)).length
        medium := (top.filter (fun f => f.severity = .medium)).length
        low := (top.filter (fun f => f.severity = .low)).length
        total := top.length } }

/-- The `FixPlan` record of the auto-fix module:
1-based inclusive line range and replacement lines. -/
structure FixPlan where
  path : Str
  start : Int
  fin : Int
  replacement : List Str
  title : Str
deriving DecidableEq, Inhabited

/-- The options record passed to `collectFixes`. -/
structure FixOptions where
  allowedCats : List Category
  maxLines : Int

/-- The filtering stage of `collectFixes`: a finding yields a plan only when
it carries a non-blank suggestion, an allowed category, a severity other
than high, and a line count `max 1 (end - start + 1)` within `maxLines`. -/
def planCandidates (findings : List Finding) (opts : FixOptions) : List FixPlan :=
  findings.filterMap (fun f =>
    match f.suggestion with
    | none => none
    | some sugg =>
      if jsTrim sugg = [] then none
      else if f.category ∉ opts.allowedCats then none
      else if f.severity = .high then none
      else if max 1 (f.end_line - f.start_line + 1) > opts.maxLines then none
      else some
        { path := f.path
          start := f.start_line
          fin := f.end_line
          replacement := splitNl (replaceCRLF sugg)
          title := if f.title = [] then ['A','u','t','o','-','f','i','x'] else f.title })

/-- Push a plan onto the per-file group map (JS `Map` of arrays). -/
def addToGroup (m : List (Str × List FixPlan)) (p : FixPlan) : List (Str × List FixPlan) :=
  match m with
  | [] => [(p.path, [p])]
  | (k, arr) :: rest =>
    if k = p.path then (k, arr ++ [p]) :: rest else (k, arr) :: addToGroup rest p

/-- Ascending-start ordering used to sort each file's candidate plans. -/
def startLe (a b : FixPlan) : Prop := a.start ≤ b.start

instance : DecidableRel startLe := fun a b => inferInstanceAs (Decidable (a.start ≤ b.start))

/-- The skip phase of the overlap-dedupe loop of `collectFixes`: `last` is
the most recently kept plan; a plan starting within its span is dropped. -/
def keepSkip (last : FixPlan) : List FixPlan → List FixPlan
  | [] => []
  | q :: rest => if q.start ≤ last.fin then keepSkip last rest else q :: keepSkip q rest

/-- The overlap-dedupe loop of `collectFixes` over one file's sorted plans. -/
def keepFixes : List FixPlan → List FixPlan
  | [] => []
  | p :: rest => p :: keepSkip p rest

/-- The `collectFixes` function of the auto-fix module: filter findings into
candidate plans, group them per file, sort each group by ascending start
line, and greedily drop overlapping plans. -/
def collectFixes (findings : List Finding) (opts : FixOptions) : List FixPlan :=
  let plans := planCandidates findings opts
  let byFile := plans.foldl addToGroup []
  byFile.flatMap (fun g => keepFixes (List.insertionSort startLe g.2))

/-- One splice of `applyFixesToDisk`:
`lines.splice(max(1,start)-1, end-start+1, ...replacement)` with the JS
clamping semantics of `Array.prototype.splice`. -/
def spliceFix (lines : List Str) (fix : FixPlan) : List Str :=
  let s := (max 1 fix.start - 1).toNat
  let e := (max 1 fix.fin - 1).toNat
  let cnt := e + 1 - s
  lines.take s ++ fix.replacement ++ lines.drop (s + cnt)

/-- Descending-start ordering used by `applyFixesToDisk` to apply edits
from the bottom of the file to the top. -/
def startGe (a b : FixPlan) : Prop := b.start ≤ a.start

instance : DecidableRel startGe := fun a b => inferInstanceAs (Decidable (b.start ≤ a.start))

/-- The per-file body of `applyFixesToDisk` (file-system access omitted):
sort the file's plans by descending start line and splice each one. -/
def applyFixesToFile (lines : List Str) (arr : List FixPlan) : List Str :=
  (List.insertionSort startGe arr).foldl spliceFix lines

/-- Modelled from the spec: the intended result of applying ascending,
pairwise non-overlapping fix plans: for each plan in turn, keep the
original lines strictly before its range, emit its replacement lines in
place of the range, and continue after the range; original lines outside
every range are kept unchanged and in order.  `pos` is the 0-based index
of the next original line still to be emitted. -/
def spliceSpec (orig : List Str) (pos : Nat) : List FixPlan → List Str
  | [] => orig.drop pos
  | f :: rest =>
    (orig.drop pos).take ((f.start - 1).toNat - pos) ++ f.replacement ++
      spliceSpec orig f.fin.toNat rest

/-- A rule hit: the metadata a rule of `runRules` attaches to a line. -/
structure RuleHit where
  category : Category
  severity : Severity
  title : Str
  rationale : Str
  suggestion : Option Str
deriving DecidableEq

/-- The `RuleCtx` record of the rule engine. -/
structure RuleCtx where
  path : Str
  source : Str
  startLine : Int
  endLine : Int
  allowConsole : Bool := false

/-- The list of integers from `a` to `b` inclusive (empty when `b < a`),
the index sequence of the `for` loop of `runRules`. -/
def intRange (a b : Int) : List Int :=
  (List.range (b + 1 - a).toNat).map (fun (i : Nat) => a + (i : Int))

/-- Build the finding that `add` pushes in `runRules`: the hit's metadata
with `start_line = end_line = lineNo`. -/
def hitToFinding (path : Str) (lineNo : Int) (h : RuleHit) : Finding :=
  { path := path
    start_line := lineNo
    end_line := lineNo
    category := h.category
    severity := h.severity
    title := h.title
    rationale := h.rationale
    suggestion := h.suggestion }

/-- The driver of `runRules`, faithful to the source's loop: split the file
into lines, clamp the caller's range to `[max 1 startLine, min lineCount
endLine]`, and on each line in the clamped range emit one finding per rule
hit, anchored at that line.  The bodies of the individual pattern rules are
abstracted as the `checkLine` parameter (they receive the file path, the
`allowConsole` flag, the full line list and the 1-based line number, exactly
the data the source's rule bodies read); every theorem below holds for
every such rule set, in particular for the source's. -/
def runRulesWith (checkLine : Str → Bool → List Str → Int → List RuleHit)
    (ctx : RuleCtx) : List Finding :=
  let lines := splitNl ctx.source
  let start := max 1 ctx.startLine
  let stop := min (lines.length : Int) ctx.endLine
  (intRange start stop).flatMap (fun lineNo =>
    (checkLine ctx.path ctx.allowConsole lines lineNo).map (hitToFinding ctx.path lineNo))

/-- The `Hunk` record of `src/diff.ts`: the new-side line range. -/
structure Hunk where
  startLine : Nat
  endLine : Nat
deriving DecidableEq

/-- Is `c` an ASCII decimal digit (regex `\d`). -/
def isDigitCh (c : Char) : Bool := '0' ≤ c ∧ c ≤ '9'

/-- One regex `\s` character (the whitespace characters JS `\s` matches,
restricted to the ASCII ones that can occur in a patch line). -/
def isWsCh (c : Char) : Bool :=
  c = ' ' || c = '\t' || c = '\x0b' || c = '\x0c' || c = '\r'

/-- Numeric value of a digit string, as `parseInt(s, 10)` computes it. -/
def digitsVal (s : Str) : Nat := s.foldl (fun acc c => 10 * acc + (c.toNat - 48)) 0

/-- Consume a maximal run of digits, accumulating their value. -/
def takeDigitsAux (acc : Nat) : Str → Nat × Str
  | [] => (acc, [])
  | c :: rest =>
    if isDigitCh c then takeDigitsAux (10 * acc + (c.toNat - 48)) rest else (acc, c :: rest)

/-- Regex `\d+`: consume one or more digits, returning their value and
the rest of the input, or `none` when no digit is present. -/
def takeDigits : Str → Option (Nat × Str)
  | [] => none
  | c :: rest =>
    if isDigitCh c then some (takeDigitsAux (c.toNat - 48) rest) else none

/-- Consume one required character (a literal of the regex). -/
def expectChar (ch : Char) : Str → Option Str
  | c :: r => if c = ch then some r else none
  | [] => none

/-- Consume one regex `\s` character. -/
def expectWs : Str → Option Str
  | c :: r => if isWsCh c then some r else none
  | [] => none

/-- Match the optional group `(?:,\d+)?` (old-side length, not captured).
The group matches greedily; since `,`, digits and `\s` are disjoint
character classes, maximal munch coincides with the regex's backtracking
semantics. -/
def optOldLen (s : Str) : Option Str :=
  match s with
  | c :: rr => if c = ',' then (takeDigits rr).map (fun p => p.2) else some (c :: rr)
  | [] => some []

/-- Match the optional group `(?:,(\d+))?` (captured new-side length). -/
def optNewLen (s : Str) : Option (Option Nat × Str) :=
  match s with
  | c :: rr =>
    if c = ',' then (takeDigits rr).map (fun p => (some p.1, p.2))
    else some (none, c :: rr)
  | [] => some (none, [])

/-- Match the hunk-header regex
`^@@\s-\d+(?:,\d+)?\s\+(\d+)(?:,(\d+))?\s@@` against a patch line,
returning the captured new-side start and optional new-side length
(the regex is not anchored at the end, so trailing text is ignored). -/
def parseHunkHeader (l : Str) : Option (Nat × Option Nat) :=
  (expectChar '@' l).bind fun r1 =>
  (expectChar '@' r1).bind fun r2 =>
  (expectWs r2).bind fun r3 =>
  (expectChar '-' r3).bind fun r4 =>
  (takeDigits r4).bind fun p1 =>
  (optOldLen p1.2).bind fun r5 =>
  (expectWs r5).bind fun r6 =>
  (expectChar '+' r6).bind fun r7 =>
  (takeDigits r7).bind fun p2 =>
  (optNewLen p2.2).bind fun q =>
  (expectWs q.2).bind fun r8 =>
  (expectChar '@' r8).bind fun r9 =>
  (expectChar '@' r9).map fun _ => (p2.1, q.1)

/-- The `parsePatchToHunks` function of `src/diff.ts`: scan every line of
the patch for a hunk header and derive the new-side hunk range
`[newStart, newStart + max (newLen - 1) 0]`, a missing length defaulting
to 1. -/
def parsePatchToHunks (patch : Str) : List Hunk :=
  if patch = [] then []
  else
    (splitNl patch).filterMap (fun l =>
      (parseHunkHeader l).map (fun nm =>
        let len := nm.2.getD 1
        { startLine := nm.1, endLine := nm.1 + (len - 1) }))

/-- Error classes of the embedding client (`EmbeddingError` of
`src/embeddings.ts`). -/
inductive EmbCode where
  | quota | http | noKey
deriving DecidableEq

/-- The `EmbeddingError` class: a code and a message. -/
structure EmbError where
  code : EmbCode
  msg : Str
deriving DecidableEq

/-- The common-length loop bound of `cosineSim`. -/
def commonLen (a b : List ℝ) : Nat := min a.length b.length

/-- The `dot` accumulator of `cosineSim` over the common prefix. -/
def dotAcc (a b : List ℝ) : ℝ := ((a.zipWith (· * ·) b).sum)

/-- The `na` accumulator of `cosineSim`: sum of squares of the first
vector over the common length. -/
def sqNormA (a b : List ℝ) : ℝ := (((a.take (commonLen a b)).map (fun x => x * x)).sum)

/-- The `nb` accumulator of `cosineSim`: sum of squares of the second
vector over the common length. -/
def sqNormB (a b : List ℝ) : ℝ := (((b.take (commonLen a b)).map (fun x => x * x)).sum)

open scoped Classical in
/-- The `cosineSim` function of `src/embeddings.ts` over real-valued
vectors: accumulate dot product and squared norms over the common prefix,
return 0 when either squared norm is zero, and divide otherwise. -/
noncomputable def cosineSim (a b : List ℝ) : ℝ :=
  if sqNormA a b = 0 ∨ sqNormB a b = 0 then 0
  else dotAcc a b / (Real.sqrt (sqNormA a b) * Real.sqrt (sqNormB a b))

/-- The `IndexEntry` record of `src/context.ts`. -/
structure IndexEntry where
  id : Str
  path : Str
  startLine : Int
  endLine : Int
  symbolType : Str
  symbolName : Option Str
  snippet : Str
  fileHash : Str
  embedding : List ℝ

/-- The `RepoIndex` record of `src/context.ts`. -/
structure RepoIndex where
  model : Str
  createdAt : Str
  entries : List IndexEntry

/-- The projected chunk record returned by `retrieveSimilar`. -/
structure Retrieved where
  path : Str
  startLine : Int
  endLine : Int
  symbolType : Str
  symbolName : Option Str
  snippet : Str

/-- Node's `path.dirname`: the part before the last `/`, `"."` when there
is no `/`, `"/"` for a name directly under the root. -/
def jsDirname (s : Str) : Str :=
  let parts := s.splitOn '/'
  if parts.length ≤ 1 then ['.']
  else
    let front := parts.dropLast
    if front = [[]] then ['/'] else (front.intersperse ['/']).flatten

/-- JS `Array.prototype.slice(0, k)`: a negative bound counts back from
the end of the array. -/
def jsSlice0 (k : Int) (l : List α) : List α :=
  l.take (if k < 0 then ((l.length : Int) + k).toNat else k.toNat)

/-- Score-descending ordering on scored entries, from the retrieval sort
comparator `(a, b) => b.score - a.score`. -/
def scoreGe (x y : IndexEntry × ℝ) : Prop := y.2 ≤ x.2

open scoped Classical in
/-- The `retrieveSimilar` function of `src/context.ts`.  The one effectful
step — `await getEmbedding(queryText)` — is modelled by the `embedRes`
argument holding that call's outcome: the guard clauses before it run
without consulting it, and after the guards the code awaits the embedding,
so a failure there propagates out of the function (there is no handler).
Entries are scored by cosine similarity plus locality bonuses, sorted by
descending score, and the first `k` are projected. -/
noncomputable def retrieveSimilar (index : Option RepoIndex)
    (embedRes : Except EmbError (List ℝ)) (pathHint : Str) (k : Int) :
    Except EmbError (List Retrieved) :=
  match index with
  | none => .ok []
  | some idx =>
    if idx.entries.length = 0 then .ok []
    else
      match embedRes with
      | .error e => .error e
      | .ok q =>
        let sameDir := if jsDirname pathHint = [] then ['.'] else jsDirname pathHint
        let scored := idx.entries.map (fun e =>
          (e, cosineSim q e.embedding +
            (if e.path = pathHint then (5 / 100 : ℝ)
             else if jsDirname e.path = sameDir then (2 / 100 : ℝ) else 0)))
        let sorted := List.insertionSort scoreGe scored
        .ok ((jsSlice0 k sorted).map (fun s =>
          { path := s.1.path
            startLine := s.1.startLine
            endLine := s.1.endLine
            symbolType := s.1.symbolType
            symbolName := s.1.symbolName
            snippet := s.1.snippet }))


def allDigits (s : Str) : Bool := s.all isDigitCh

def headNotDigit : Str → Bool
  | [] => true
  | c :: _ => !isDigitCh c

lemma takeDigitsAux_append (acc : Nat) (ds rest : Str)
    (hds : allDigits ds = true) (hrest : headNotDigit rest = true) :
    takeDigitsAux acc (ds ++ rest) =
      (ds.foldl (fun a c => 10 * a + (c.toNat - 48)) acc, rest) := by
  induction ds generalizing acc with
  | nil =>
    cases rest with
    | nil => simp [takeDigitsAux]
    | cons c r =>
      simp only [headNotDigit, Bool.not_eq_true'] at hrest
      simp [takeDigitsAux, hrest]
  | cons d ds' ih =>
    simp only [allDigits, List.all_cons, Bool.and_eq_true] at hds
    simpa [takeDigitsAux, hds.1] using ih _ (by simp [allDigits, hds.2])

lemma takeDigits_append (ds rest : Str) (hne : ds ≠ [])
    (hds : allDigits ds = true) (hrest : headNotDigit rest = true) :
    takeDigits (ds ++ rest) = some (digitsVal ds, rest) := by
  cases ds with
  | nil => exact absurd rfl hne
  | cons c ds' =>
    simp only [allDigits, List.all_cons, Bool.and_eq_true] at hds
    rw [List.cons_append, takeDigits]
    simp only [hds.1, if_true]
    rw [takeDigitsAux_append _ _ _ (by simp [allDigits, hds.2]) hrest]
    simp [digitsVal]

lemma parseHunkHeader_full (d1 d2 d3 d4 t : Str)
    (h1 : d1 ≠ [] ∧ allDigits d1 = true) (h2 : d2 ≠ [] ∧ allDigits d2 = true)
    (h3 : d3 ≠ [] ∧ allDigits d3 = true) (h4 : d4 ≠ [] ∧ allDigits d4 = true) :
    parseHunkHeader ('@' :: '@' :: ' ' :: '-' ::
        (d1 ++ ',' :: (d2 ++ ' ' :: '+' :: (d3 ++ ',' :: (d4 ++ ' ' :: '@' :: '@' :: t))))) =
      some (digitsVal d3, some (digitsVal d4)) := by
  rw [parseHunkHeader]
  norm_num [expectChar, expectWs, isWsCh]
  rw [takeDigits_append _ _ h1.1 h1.2 (by simp [headNotDigit, isDigitCh])]
  norm_num [optOldLen, Option.some_bind]
  rw [takeDigits_append _ _ h2.1 h2.2 (by simp [headNotDigit, isDigitCh])]
  norm_num [expectWs, expectChar, isWsCh, Option.some_bind]
  rw [takeDigits_append _ _ h3.1 h3.2 (by simp [headNotDigit, isDigitCh])]
  norm_num [optNewLen, Option.some_bind]
  rw [takeDigits_append _ _ h4.1 h4.2 (by simp [headNotDigit, isDigitCh])]
  norm_num [expectWs, expectChar, isWsCh, Option.some_bind]

lemma parseHunkHeader_noLen (d1 d3 t : Str)
    (h1 : d1 ≠ [] ∧ allDigits d1 = true) (h3 : d3 ≠ [] ∧ allDigits d3 = true) :
    parseHunkHeader ('@' :: '@' :: ' ' :: '-' ::
        (d1 ++ ' ' :: '+' :: (d3 ++ ' ' :: '@' :: '@' :: t))) =
      some (digitsVal d3, none) := by
  rw [parseHunkHeader]
  simp only [expectChar, expectWs, isWsCh]
  norm_num
  rw [takeDigits_append _ _ h1.1 h1.2 (by simp [headNotDigit, isDigitCh])]
  simp [optOldLen, expectWs, expectChar, isWsCh, Option.some_bind]
  rw [takeDigits_append _ _ h3.1 h3.2 (by simp [headNotDigit, isDigitCh])]
  simp [optNewLen, expectWs, expectChar, isWsCh, Option.some_bind]

lemma splitNl_no_newline (s : Str) (h : '\n' ∉ s) : splitNl s = [s] := by
  induction s with
  | nil => rfl
  | cons c rest ih =>
    simp only [List.mem_cons, not_or] at h
    rw [splitNl, ih h.2]
    simp [Ne.symm h.1]

lemma digits_no_newline (d : Str) (hd : allDigits d = true) : '\n' ∉ d := by
  intro hmem
  simp only [allDigits, List.all_eq_true] at hd
  have := hd _ hmem
  simp [isDigitCh] at this

/-- C8.  For every unified diff patch consisting of a hunk-header line of
the form `@@ -<old>[,<oldLen>] +<new>[,<newLen>] @@` (arbitrary digit
strings, arbitrary newline-free trailing text), `parsePatchToHunks`
derives the hunk `{startLine := newStart, endLine := newStart + (newLen -
1)}` — the truncated subtraction realising `max (newLen - 1) 0` — with a
missing new-side length defaulting to 1; concretely, header
`@@ -10,5 +20,8 @@` yields `{20, 27}` and header `@@ -1 +1 @@` yields
`{1, 1}`. -/
theorem parsePatchToHunks_header (d1 d2 d3 d4 t : Str)
    (h1 : d1 ≠ [] ∧ allDigits d1 = true) (h2 : d2 ≠ [] ∧ allDigits d2 = true)
    (h3 : d3 ≠ [] ∧ allDigits d3 = true) (h4 : d4 ≠ [] ∧ allDigits d4 = true)
    (ht : '\n' ∉ t) :
    parsePatchToHunks ('@' :: '@' :: ' ' :: '-' ::
        (d1 ++ ',' :: (d2 ++ ' ' :: '+' :: (d3 ++ ',' :: (d4 ++ ' ' :: '@' :: '@' :: t))))) =
      [{ startLine := digitsVal d3, endLine := digitsVal d3 + (digitsVal d4 - 1) }] ∧
    parsePatchToHunks ('@' :: '@' :: ' ' :: '-' ::
        (d1 ++ ' ' :: '+' :: (d3 ++ ' ' :: '@' :: '@' :: t))) =
      [{ startLine := digitsVal d3, endLine := digitsVal d3 }] ∧
    parsePatchToHunks ['@','@',' ','-','1','0',',','5',' ','+','2','0',',','8',' ','@','@'] =
      [{ startLine := 20, endLine := 27 }] ∧
    parsePatchToHunks ['@','@',' ','-','1',' ','+','1',' ','@','@'] =
      [{ startLine := 1, endLine := 1 }] := by
  refine ⟨?_, ?_, by decide, by decide⟩
  · rw [parsePatchToHunks, if_neg (by simp), splitNl_no_newline _ (by
      simp only [List.mem_cons, List.mem_append, not_or]
      refine ⟨by decide, by decide, by decide, by decide, ?_⟩
      simp [digits_no_newline d1 h1.2, digits_no_newline d2 h2.2,
        digits_no_newline d3 h3.2, digits_no_newline d4 h4.2, ht])]
    rw [List.filterMap_cons, List.filterMap_nil,
      parseHunkHeader_full d1 d2 d3 d4 t h1 h2 h3 h4]
    simp
  · rw [parsePatchToHunks, if_neg (by simp), splitNl_no_newline _ (by
      simp only [List.mem_cons, List.mem_append, not_or]
      refine ⟨by decide, by decide, by decide, by decide, ?_⟩
      simp [digits_no_newline d1 h1.2, digits_no_newline d3 h3.2, ht])]
    rw [List.filterMap_cons, List.filterMap_nil,
      parseHunkHeader_noLen d1 d3 t h1 h3]
    simp

/-- Witness for C8 at `@@ -10,5 +20,8 @@` with empty tail. -/
theorem parsePatchToHunks_header_witness :
    parsePatchToHunks ('@' :: '@' :: ' ' :: '-' ::
        (['1','0'] ++ ',' :: (['5'] ++ ' ' :: '+' :: (['2','0'] ++ ',' :: (['8'] ++ ' ' :: '@' :: '@' :: []))))) =
      [{ startLine := digitsVal ['2','0'], endLine := digitsVal ['2','0'] + (digitsVal ['8'] - 1) }] :=
  (parsePatchToHunks_header ['1','0'] ['5'] ['2','0'] ['8'] []
    (by decide) (by decide) (by decide) (by decide) (by decide)).1

lemma zipWith_take_min (f : α → β → γ) (a : List α) (b : List β) :
    List.zipWith f a b =
      List.zipWith f (a.take (min a.length b.length)) (b.take (min a.length b.length)) := by
  induction a generalizing b with
  | nil => simp
  | cons x xs ih =>
    cases b with
    | nil => simp
    | cons y ys =>
      simp only [List.zipWith_cons_cons, List.length_cons]
      rw [show min (xs.length + 1) (ys.length + 1) = min xs.length ys.length + 1 by omega]
      simp only [List.take_succ_cons, List.zipWith_cons_cons]
      exact congrArg _ (ih ys)

lemma squares_sum_nonneg (l : List ℝ) : 0 ≤ (l.map (fun x => x * x)).sum := by
  apply List.sum_nonneg
  intro x hx
  obtain ⟨y, _, rfl⟩ := List.mem_map.mp hx
  exact mul_self_nonneg y

/-- C10.  `cosineSim` is total on every pair of real vectors: its value
depends only on the common prefix of length `min |a| |b|`; whenever either
squared norm over that prefix is zero it returns 0 (taking the guarded
branch, so the division is not performed); and whenever the guard fails the
denominator `sqrt na * sqrt nb` is provably nonzero and the function equals
the explicit quotient. -/
theorem cosineSim_total_safe (a b : List ℝ) :
    cosineSim a b =
      cosineSim (a.take (commonLen a b)) (b.take (commonLen a b)) ∧
    (sqNormA a b = 0 ∨ sqNormB a b = 0 → cosineSim a b = 0) ∧
    (sqNormA a b ≠ 0 → sqNormB a b ≠ 0 →
      Real.sqrt (sqNormA a b) * Real.sqrt (sqNormB a b) ≠ 0 ∧
      cosineSim a b = dotAcc a b / (Real.sqrt (sqNormA a b) * Real.sqrt (sqNormB a b))) := by
  have hlenA : (a.take (commonLen a b)).length = commonLen a b := by
    simp [commonLen, List.length_take]
  have hlenB : (b.take (commonLen a b)).length = commonLen a b := by
    simp [commonLen, List.length_take]
  have hcl : commonLen (a.take (commonLen a b)) (b.take (commonLen a b)) = commonLen a b := by
    simp [commonLen, hlenA, hlenB]
  have hA : sqNormA (a.take (commonLen a b)) (b.take (commonLen a b)) = sqNormA a b := by
    rw [sqNormA, sqNormA, hcl, List.take_take, min_self]
  have hB : sqNormB (a.take (commonLen a b)) (b.take (commonLen a b)) = sqNormB a b := by
    rw [sqNormB, sqNormB, hcl, List.take_take, min_self]
  have hD : dotAcc (a.take (commonLen a b)) (b.take (commonLen a b)) = dotAcc a b := by
    rw [dotAcc, dotAcc, zipWith_take_min (· * ·) a b]
    rfl
  refine ⟨?_, ?_, ?_⟩
  · rw [cosineSim, cosineSim, hA, hB, hD]
  · intro h
    rw [cosineSim, if_pos h]
  · intro hna hnb
    have hposA : 0 < sqNormA a b := lt_of_le_of_ne (squares_sum_nonneg _) (Ne.symm hna)
    have hposB : 0 < sqNormB a b := lt_of_le_of_ne (squares_sum_nonneg _) (Ne.symm hnb)
    have hden : 0 < Real.sqrt (sqNormA a b) * Real.sqrt (sqNormB a b) :=
      mul_pos (Real.sqrt_pos.mpr hposA) (Real.sqrt_pos.mpr hposB)
    exact ⟨ne_of_gt hden, by rw [cosineSim, if_neg (by push_neg; exact ⟨hna, hnb⟩)]⟩

/-- Witness for C10: a zero first vector makes the guard fire. -/
theorem cosineSim_total_safe_witness :
    cosineSim [(0 : ℝ), 0] [1, 2] = 0 :=
  (cosineSim_total_safe [(0 : ℝ), 0] [1, 2]).2.1
    (Or.inl (by norm_num [sqNormA, commonLen]))

/-- A one-entry concrete index, for evaluating the retrieval path. -/
def entryA : IndexEntry :=
  { id := [], path := ['a','.','t','s'], startLine := 1, endLine := 2,
    symbolType := [], symbolName := none, snippet := ['x'], fileHash := [],
    embedding := [1] }

/-- A second concrete entry, for a two-entry index. -/
def entryB : IndexEntry :=
  { id := [], path := ['b','.','t','s'], startLine := 3, endLine := 4,
    symbolType := [], symbolName := none, snippet := ['y'], fileHash := [],
    embedding := [2] }

/-- A concrete index holding one entry. -/
def idxOne : RepoIndex := { model := [], createdAt := [], entries := [entryA] }

/-- A concrete index holding two entries. -/
def idxTwo : RepoIndex := { model := [], createdAt := [], entries := [entryA, entryB] }

/-- C3.  Contrary to the fail-open contract, when the index is non-empty
and the embedding call for the query fails (here with the quota error
class), `retrieveSimilar` propagates the error to its caller instead of
returning an empty list: there is no handler around the embedding await. -/
theorem retrieveSimilar_propagates_embedding_error :
    retrieveSimilar (some idxOne) (.error { code := .quota, msg := [] }) ['a'] 6 =
      .error { code := .quota, msg := [] } := rfl

lemma retrieveSimilar_neg_k_length (idx : RepoIndex) (q : List ℝ) (p : Str) (k : Int)
    (hk : k < 0) :
    (retrieveSimilar (some idx) (.ok q) p k).map List.length =
      .ok ((idx.entries.length + k).toNat) := by
  classical
  by_cases h : idx.entries.length = 0
  · simp only [retrieveSimilar, if_pos h, Except.map, h]
    simp only [if_true, List.length_nil, Except.ok.injEq]
    omega
  · simp only [retrieveSimilar, if_neg h, Except.map]
    congr 1
    rw [List.length_map, jsSlice0, if_pos hk, List.length_take,
      (List.perm_insertionSort _ _).length_eq, List.length_map]
    omega

/-- C7 (amended).  `retrieveSimilar` returns an empty list immediately —
for every embedding outcome, hence without consulting the embedding call —
whenever the index is absent or has zero entries; when the index is
non-empty and the embedding succeeds it returns an empty list for `k = 0`;
but for negative `k` it does not return an empty list in general: it
returns the first `entries + k` of the sorted entries (JS `slice(0, k)`
with a negative bound counts back from the end), which is non-empty
whenever the index has more than `|k|` entries. -/
theorem retrieveSimilar_k_guard :
    (∀ (er : Except EmbError (List ℝ)) (p : Str) (k : Int),
      retrieveSimilar none er p k = .ok []) ∧
    (∀ (idx : RepoIndex) (er : Except EmbError (List ℝ)) (p : Str) (k : Int),
      idx.entries = [] → retrieveSimilar (some idx) er p k = .ok []) ∧
    (∀ (idx : RepoIndex) (q : List ℝ) (p : Str),
      retrieveSimilar (some idx) (.ok q) p 0 = .ok []) ∧
    (∀ (idx : RepoIndex) (q : List ℝ) (p : Str) (k : Int), k < 0 →
      (retrieveSimilar (some idx) (.ok q) p k).map List.length =
        .ok ((idx.entries.length + k).toNat)) := by
  refine ⟨fun er p k => rfl, ?_, ?_,
    fun idx q p k hk => retrieveSimilar_neg_k_length idx q p k hk⟩
  · intro idx er p k he
    simp [retrieveSimilar, he]
  · intro idx q p
    by_cases h : idx.entries.length = 0
    · simp [retrieveSimilar, h]
    · simp [retrieveSimilar, h, jsSlice0]

/-- Counterexample to C7 as stated: with a two-entry index and `k = -1`,
`retrieveSimilar` does not return the empty list. -/
theorem retrieveSimilar_neg_k_not_empty :
    retrieveSimilar (some idxTwo) (.ok [1]) ['a','.','t','s'] (-1) ≠ .ok [] := by
  intro heq
  have h := retrieveSimilar_neg_k_length idxTwo [1] ['a','.','t','s'] (-1) (by decide)
  rw [heq] at h
  simp [idxTwo, Except.map] at h

/-- Witness for C7 (amended) at the two-entry index and `k = -1`. -/
theorem retrieveSimilar_k_guard_witness :
    ((-1 : Int) < 0) ∧
    (retrieveSimilar (some idxTwo) (.ok [1]) ['a','.','t','s'] (-1)).map List.length =
      .ok ((idxTwo.entries.length + (-1 : Int)).toNat) :=
  ⟨by decide, retrieveSimilar_k_guard.2.2.2 idxTwo [1] ['a','.','t','s'] (-1) (by decide)⟩

lemma keepSkip_subset (l : List FixPlan) : ∀ last, keepSkip last l ⊆ l := by
  induction l with
  | nil => intro last; simp [keepSkip]
  | cons q rest ih =>
    intro last
    rw [keepSkip]
    by_cases h : q.start ≤ last.fin
    · simp only [if_pos h]
      exact (ih last).trans (List.subset_cons_self q rest)
    · simp only [if_neg h]
      exact List.cons_subset_cons q (ih q)

lemma keepFixes_subset (l : List FixPlan) : keepFixes l ⊆ l := by
  cases l with
  | nil => simp [keepFixes]
  | cons p rest => exact List.cons_subset_cons p (keepSkip_subset rest p)

lemma addToGroup_mem (m : List (Str × List FixPlan)) (p : FixPlan) (g : Str × List FixPlan)
    (hg : g ∈ addToGroup m p) (q : FixPlan) (hq : q ∈ g.2) :
    (∃ g0 ∈ m, q ∈ g0.2) ∨ q = p := by
  induction m with
  | nil =>
    simp only [addToGroup, List.mem_singleton] at hg
    subst hg
    simp only [List.mem_singleton] at hq
    exact Or.inr hq
  | cons kv rest ih =>
    rw [addToGroup] at hg
    by_cases h : kv.1 = p.path
    · simp only [if_pos h, List.mem_cons] at hg
      rcases hg with hg | hg
      · subst hg
        simp only [List.mem_append, List.mem_singleton] at hq
        rcases hq with hq | hq
        · exact Or.inl ⟨kv, List.mem_cons_self kv rest, hq⟩
        · exact Or.inr hq
      · exact Or.inl ⟨g, List.mem_cons_of_mem kv hg, hq⟩
    · simp only [if_neg h, List.mem_cons] at hg
      rcases hg with hg | hg
      · subst hg
        exact Or.inl ⟨kv, List.mem_cons_self kv rest, hq⟩
      · rcases ih hg with ⟨g0, hg0, hq0⟩ | hqp
        · exact Or.inl ⟨g0, List.mem_cons_of_mem kv hg0, hq0⟩
        · exact Or.inr hqp

lemma groups_mem (plans : List FixPlan) (m : List (Str × List FixPlan))
    (g : Str × List FixPlan) (hg : g ∈ plans.foldl addToGroup m)
    (q : FixPlan) (hq : q ∈ g.2) :
    (∃ g0 ∈ m, q ∈ g0.2) ∨ q ∈ plans := by
  induction plans generalizing m with
  | nil => exact Or.inl ⟨g, hg, hq⟩
  | cons p ps ih =>
    rw [List.foldl_cons] at hg
    rcases ih (addToGroup m p) hg with ⟨g0, hg0, hq0⟩ | hqs
    · rcases addToGroup_mem m p g0 hg0 q hq0 with h | h
      · exact Or.inl h
      · exact Or.inr (by simp [h])
    · exact Or.inr (List.mem_cons_of_mem p hqs)

lemma mem_collectFixes_mem_planCandidates (findings : List Finding) (opts : FixOptions)
    (p : FixPlan) (hp : p ∈ collectFixes findings opts) :
    p ∈ planCandidates findings opts := by
  rw [collectFixes] at hp
  simp only [List.mem_flatMap] at hp
  obtain ⟨g, hg, hpg⟩ := hp
  have h1 : p ∈ List.insertionSort startLe g.2 := keepFixes_subset _ hpg
  have h2 : p ∈ g.2 := (List.perm_insertionSort startLe g.2).mem_iff.mp h1
  rcases groups_mem _ [] g hg p h2 with ⟨g0, hg0, _⟩ | h
  · simp at hg0
  · exact h

lemma planCandidates_conditions (findings : List Finding) (opts : FixOptions)
    (p : FixPlan) (hp2 : p ∈ planCandidates findings opts) :
    ∃ f ∈ findings,
      (∃ sugg, f.suggestion = some sugg ∧ jsTrim sugg ≠ []) ∧
      f.category ∈ opts.allowedCats ∧
      f.severity ≠ .high ∧
      f.end_line - f.start_line + 1 ≤ opts.maxLines ∧
      p.path = f.path ∧ p.start = f.start_line ∧ p.fin = f.end_line := by
  rw [planCandidates] at hp2
  simp only [List.mem_filterMap] at hp2
  obtain ⟨f, hf, hfn⟩ := hp2
  refine ⟨f, hf, ?_⟩
  cases hsugg : f.suggestion with
  | none => rw [hsugg] at hfn; simp at hfn
  | some sugg =>
    rw [hsugg] at hfn
    simp only at hfn
    split_ifs at hfn with h1 h2 h3 h4 h5
    · rw [Option.some_inj] at hfn
      subst hfn
      exact ⟨⟨sugg, rfl, h1⟩, h2, h3, le_trans (le_max_right _ _) (not_lt.mp h4), rfl, rfl, rfl⟩
    · rw [Option.some_inj] at hfn
      subst hfn
      exact ⟨⟨sugg, rfl, h1⟩, h2, h3, le_trans (le_max_right _ _) (not_lt.mp h4), rfl, rfl, rfl⟩

/-- C5.  Every plan emitted by `collectFixes` comes from an input finding
that carries a present, non-blank suggestion, whose category is in the
allowed set, whose severity is not high (so high-severity findings are
never auto-applied), and whose span `end_line - start_line + 1` does not
exceed `maxLines`; the plan's path and line range are the finding's. -/
theorem collectFixes_emits_only_safe (findings : List Finding) (opts : FixOptions)
    (p : FixPlan) (hp : p ∈ collectFixes findings opts) :
    ∃ f ∈ findings,
      (∃ sugg, f.suggestion = some sugg ∧ jsTrim sugg ≠ []) ∧
      f.category ∈ opts.allowedCats ∧
      f.severity ≠ .high ∧
      f.end_line - f.start_line + 1 ≤ opts.maxLines ∧
      p.path = f.path ∧ p.start = f.start_line ∧ p.fin = f.end_line :=
  planCandidates_conditions findings opts p
    (mem_collectFixes_mem_planCandidates findings opts p hp)

/-- A concrete auto-fixable finding. -/
def fStyle : Finding :=
  { path := ['a'], start_line := 2, end_line := 3, category := .style,
    title := ['t'], rationale := [], suggestion := some ['x'], severity := .low }

/-- The default safe options: style/docs/test/performance, 40-line cap. -/
def optsStd : FixOptions :=
  { allowedCats := [.style, .docs, .test, .performance], maxLines := 40 }

/-- The plan `fStyle` yields. -/
def planStyle : FixPlan :=
  { path := ['a'], start := 2, fin := 3, replacement := [['x']], title := ['t'] }

/-- Witness for C5 at a concrete style finding. -/
theorem collectFixes_emits_only_safe_witness :
    ∃ f ∈ [fStyle],
      (∃ sugg, f.suggestion = some sugg ∧ jsTrim sugg ≠ []) ∧
      f.category ∈ optsStd.allowedCats ∧
      f.severity ≠ .high ∧
      f.end_line - f.start_line + 1 ≤ optsStd.maxLines ∧
      planStyle.path = f.path ∧ planStyle.start = f.start_line ∧ planStyle.fin = f.end_line :=
  collectFixes_emits_only_safe [fStyle] optsStd planStyle (by decide)

instance : IsTotal FixPlan startLe := ⟨fun a b => Int.le_total a.start b.start⟩

instance : IsTrans FixPlan startLe := ⟨fun _ _ _ hab hbc => le_trans hab hbc⟩

lemma keepSkip_sublist (l : List FixPlan) : ∀ last, (keepSkip last l).Sublist l := by
  induction l with
  | nil => intro last; simp [keepSkip]
  | cons q rest ih =>
    intro last
    rw [keepSkip]
    by_cases h : q.start ≤ last.fin
    · simp only [if_pos h]
      exact (ih last).trans (List.sublist_cons_self q rest)
    · simp only [if_neg h]
      exact (ih q).cons₂ q

lemma keepFixes_sublist (l : List FixPlan) : (keepFixes l).Sublist l := by
  cases l with
  | nil => simp [keepFixes]
  | cons p rest => exact (keepSkip_sublist rest p).cons₂ p

lemma keepSkip_gap (l : List FixPlan) : ∀ last,
    (∀ x ∈ l, x.start ≤ x.fin) → last.start ≤ last.fin →
    (∀ x ∈ keepSkip last l, last.fin < x.start) ∧
      (keepSkip last l).Pairwise (fun a b => a.fin < b.start) := by
  induction l with
  | nil => intro last _ _; simp [keepSkip]
  | cons q rest ih =>
    intro last hwf hlast
    have hwfq : q.start ≤ q.fin := hwf q (List.mem_cons_self q rest)
    have hwfr : ∀ x ∈ rest, x.start ≤ x.fin := fun x hx => hwf x (List.mem_cons_of_mem q hx)
    rw [keepSkip]
    by_cases h : q.start ≤ last.fin
    · simp only [if_pos h]
      exact ih last hwfr hlast
    · simp only [if_neg h]
      push_neg at h
      obtain ⟨iha, ihb⟩ := ih q hwfr hwfq
      refine ⟨?_, ?_⟩
      · intro x hx
        rcases List.mem_cons.mp hx with rfl | hx'
        · exact h
        · exact lt_trans (lt_of_lt_of_le h hwfq) (iha x hx')
      · exact List.pairwise_cons.mpr ⟨fun x hx => iha x hx, ihb⟩

lemma keepFixes_gap (l : List FixPlan) (hwf : ∀ x ∈ l, x.start ≤ x.fin) :
    (keepFixes l).Pairwise (fun a b => a.fin < b.start) := by
  cases l with
  | nil => simp [keepFixes]
  | cons p rest =>
    have hwfp : p.start ≤ p.fin := hwf p (List.mem_cons_self p rest)
    have hwfr : ∀ x ∈ rest, x.start ≤ x.fin := fun x hx => hwf x (List.mem_cons_of_mem p hx)
    obtain ⟨ha, hb⟩ := keepSkip_gap rest p hwfr hwfp
    exact List.pairwise_cons.mpr ⟨ha, hb⟩

lemma addToGroup_path (m : List (Str × List FixPlan)) (p : FixPlan)
    (hm : ∀ g ∈ m, ∀ q ∈ g.2, q.path = g.1) :
    ∀ g ∈ addToGroup m p, ∀ q ∈ g.2, q.path = g.1 := by
  induction m with
  | nil =>
    intro g hg q hq
    simp only [addToGroup, List.mem_singleton] at hg
    subst hg
    simp only [List.mem_singleton] at hq
    subst hq
    rfl
  | cons kv rest ih =>
    intro g hg q hq
    rw [addToGroup] at hg
    by_cases h : kv.1 = p.path
    · simp only [if_pos h, List.mem_cons] at hg
      rcases hg with rfl | hg
      · simp only [List.mem_append, List.mem_singleton] at hq
        rcases hq with hq | rfl
        · exact hm kv (List.mem_cons_self kv rest) q hq
        · exact h.symm
      · exact hm g (List.mem_cons_of_mem kv hg) q hq
    · simp only [if_neg h, List.mem_cons] at hg
      rcases hg with rfl | hg
      · exact hm _ (List.mem_cons_self _ rest) q hq
      · exact ih (fun g' hg' => hm g' (List.mem_cons_of_mem kv hg')) g hg q hq

lemma addToGroup_keys (m : List (Str × List FixPlan)) (p : FixPlan) :
    (addToGroup m p).map Prod.fst = m.map Prod.fst ∨
      (addToGroup m p).map Prod.fst = m.map Prod.fst ++ [p.path] := by
  induction m with
  | nil => simp [addToGroup]
  | cons kv rest ih =>
    rw [addToGroup]
    by_cases h : kv.1 = p.path
    · simp [if_pos h]
    · rcases ih with ih | ih <;> simp [if_neg h, ih]

lemma addToGroup_keys_nodup (m : List (Str × List FixPlan)) (p : FixPlan)
    (hm : (m.map Prod.fst).Nodup) : ((addToGroup m p).map Prod.fst).Nodup := by
  induction m with
  | nil => simp [addToGroup]
  | cons kv rest ih =>
    rw [addToGroup]
    simp only [List.map_cons, List.nodup_cons] at hm
    by_cases h : kv.1 = p.path
    · simpa [if_pos h] using hm
    · simp only [if_neg h, List.map_cons, List.nodup_cons]
      refine ⟨?_, ih hm.2⟩
      rcases addToGroup_keys rest p with hk | hk
      · rw [hk]; exact hm.1
      · rw [hk]
        simp only [List.mem_append, List.mem_singleton, not_or]
        exact ⟨hm.1, h⟩

lemma byFile_path (plans : List FixPlan) (m : List (Str × List FixPlan))
    (hm : ∀ g ∈ m, ∀ q ∈ g.2, q.path = g.1) :
    ∀ g ∈ plans.foldl addToGroup m, ∀ q ∈ g.2, q.path = g.1 := by
  induction plans generalizing m with
  | nil => exact hm
  | cons p ps ih => exact ih (addToGroup m p) (addToGroup_path m p hm)

lemma byFile_keys_nodup (plans : List FixPlan) (m : List (Str × List FixPlan))
    (hm : (m.map Prod.fst).Nodup) :
    ((plans.foldl addToGroup m).map Prod.fst).Nodup := by
  induction plans generalizing m with
  | nil => exact hm
  | cons p ps ih => exact ih (addToGroup m p) (addToGroup_keys_nodup m p hm)

lemma mem_group_wf (findings : List Finding) (opts : FixOptions)
    (hwf : ∀ f ∈ findings, f.start_line ≤ f.end_line)
    (g : Str × List FixPlan)
    (hg : g ∈ (planCandidates findings opts).foldl addToGroup [])
    (x : FixPlan) (hx : x ∈ g.2) : x.start ≤ x.fin := by
  rcases groups_mem _ [] g hg x hx with ⟨g0, hg0, _⟩ | hxp
  · simp at hg0
  · obtain ⟨f, hf, _, _, _, _, _, hs, he⟩ := planCandidates_conditions findings opts x hxp
    rw [hs, he]
    exact hwf f hf

/-- C2 (amended).  For findings with well-formed spans, no two plans
returned by `collectFixes` for the same file overlap: if `p ≠ q` share a
path and `p.start ≤ q.start` then `q.start > p.fin`.  When a file has
exactly two candidate plans and they overlap, the smaller-start one is the
one kept.  (With three or more candidates the kept member of an
overlapping pair need not be the smaller-start one — a plan is discarded
exactly when its start lies within the span of the most recently kept
plan; see the counterexample.) -/
theorem collectFixes_no_overlap :
    (∀ (findings : List Finding) (opts : FixOptions),
      (∀ f ∈ findings, f.start_line ≤ f.end_line) →
      ∀ p ∈ collectFixes findings opts, ∀ q ∈ collectFixes findings opts,
        p ≠ q → p.path = q.path → p.start ≤ q.start → p.fin < q.start) ∧
    (∀ (findings : List Finding) (opts : FixOptions) (p q : FixPlan),
      planCandidates findings opts = [p, q] → p.path = q.path →
      p.start ≤ q.start → q.start ≤ p.fin →
      collectFixes findings opts = [p]) := by
  constructor
  · intro findings opts hwf p hp q hq hne hpath hle
    rw [collectFixes] at hp hq
    simp only [List.mem_flatMap] at hp hq
    obtain ⟨gp, hgp, hpk⟩ := hp
    obtain ⟨gq, hgq, hqk⟩ := hq
    have hmemp : p ∈ gp.2 :=
      (List.perm_insertionSort startLe gp.2).mem_iff.mp (keepFixes_subset _ hpk)
    have hmemq : q ∈ gq.2 :=
      (List.perm_insertionSort startLe gq.2).mem_iff.mp (keepFixes_subset _ hqk)
    have hkeys : (((planCandidates findings opts).foldl addToGroup []).map Prod.fst).Nodup :=
      byFile_keys_nodup _ [] (by simp)
    have hpathp : p.path = gp.1 := byFile_path _ [] (by simp) gp hgp p hmemp
    have hpathq : q.path = gq.1 := byFile_path _ [] (by simp) gq hgq q hmemq
    have hgeq : gp = gq := by
      apply List.inj_on_of_nodup_map hkeys hgp hgq
      rw [← hpathp, ← hpathq, hpath]
    subst hgeq
    have hwfs : ∀ x ∈ List.insertionSort startLe gp.2, x.start ≤ x.fin := fun x hx =>
      mem_group_wf findings opts hwf gp hgp x
        ((List.perm_insertionSort startLe gp.2).mem_iff.mp hx)
    have hGap := keepFixes_gap (List.insertionSort startLe gp.2) hwfs
    have hLe : (keepFixes (List.insertionSort startLe gp.2)).Pairwise startLe :=
      (List.sorted_insertionSort startLe gp.2).sublist (keepFixes_sublist _)
    have hBoth := hGap.and hLe
    have hSym : Symmetric (fun a b : FixPlan =>
        (a.fin < b.start ∧ startLe a b) ∨ (b.fin < a.start ∧ startLe b a)) := by
      intro a b h
      tauto
    have hall := List.Pairwise.forall hSym (hBoth.imp Or.inl) hpk hqk hne
    rcases hall with ⟨h1, _⟩ | ⟨h1, h2⟩
    · exact h1
    · have hwfq : q.start ≤ q.fin :=
        mem_group_wf findings opts hwf gp hgp q hmemq
      rw [startLe] at h2
      omega
  · intro findings opts p q hcand hpath hle hov
    rw [collectFixes, hcand]
    rw [show List.foldl addToGroup [] [p, q] = [(p.path, [p, q])] by
      simp [addToGroup, hpath.symm]]
    simp only [List.flatMap_cons, List.flatMap_nil, List.append_nil]
    rw [show List.insertionSort startLe [p, q] = [p, q] by
      rw [List.insertionSort, List.insertionSort, List.insertionSort,
        List.orderedInsert, List.orderedInsert, if_pos (show startLe p q from hle)]]
    rw [keepFixes, keepSkip, if_pos hov, keepSkip]

/-- Finding on lines 1-10. -/
def fA : Finding :=
  { path := ['a'], start_line := 1, end_line := 10, category := .style,
    title := ['A'], rationale := [], suggestion := some ['s'], severity := .low }

/-- Finding on lines 2-20, overlapping `fA`. -/
def fB : Finding :=
  { path := ['a'], start_line := 2, end_line := 20, category := .style,
    title := ['B'], rationale := [], suggestion := some ['s'], severity := .low }

/-- Finding on lines 15-16, overlapping `fB` but not `fA`. -/
def fC : Finding :=
  { path := ['a'], start_line := 15, end_line := 16, category := .style,
    title := ['C'], rationale := [], suggestion := some ['s'], severity := .low }

/-- The plan `fA` yields. -/
def planA : FixPlan :=
  { path := ['a'], start := 1, fin := 10, replacement := [['s']], title := ['A'] }

/-- The plan `fB` yields. -/
def planB : FixPlan :=
  { path := ['a'], start := 2, fin := 20, replacement := [['s']], title := ['B'] }

/-- The plan `fC` yields. -/
def planC : FixPlan :=
  { path := ['a'], start := 15, fin := 16, replacement := [['s']], title := ['C'] }

/-- Counterexample to C2 as stated: with candidates at `[1,10]`, `[2,20]`
and `[15,16]` in one file, the overlapping pair `([2,20], [15,16])` is
resolved by keeping the later-starting `[15,16]` and discarding the
smaller-start `[2,20]` (which had itself been discarded against
`[1,10]`). -/
theorem collectFixes_overlap_smaller_start_not_kept :
    planB ∈ planCandidates [fA, fB, fC] optsStd ∧
    planC ∈ planCandidates [fA, fB, fC] optsStd ∧
    planB.path = planC.path ∧
    planB.start < planC.start ∧
    planC.start ≤ planB.fin ∧
    planC ∈ collectFixes [fA, fB, fC] optsStd ∧
    planB ∉ collectFixes [fA, fB, fC] optsStd := by decide

/-- Witness for C2 (amended), part 1, at the two non-overlapping plans of
`[fA, fC]`. -/
theorem collectFixes_no_overlap_witness :
    planA.fin < planC.start :=
  collectFixes_no_overlap.1 [fA, fC] optsStd (by decide) planA (by decide) planC
    (by decide) (by decide) (by decide) (by decide)

lemma strLt_asymm (a : Str) : ∀ b, strLt a b = true → strLt b a = false := by
  induction a with
  | nil => intro b h; cases b <;> simp_all [strLt]
  | cons c cs ih =>
    intro b h
    cases b with
    | nil => simp [strLt] at h
    | cons d ds =>
      rw [strLt] at h ⊢
      by_cases hcd : c < d
      · have : ¬(d < c) := lt_asymm hcd
        simp [this, hcd]
      · by_cases hdc : d < c
        · simp [hcd, hdc] at h
        · simp only [if_neg hcd, if_neg hdc] at h
          simp only [if_neg hdc, if_neg hcd]
          exact ih ds h

lemma strLt_connex (a : Str) : ∀ b, a ≠ b → strLt a b = true ∨ strLt b a = true := by
  induction a with
  | nil =>
    intro b hne
    cases b with
    | nil => exact absurd rfl hne
    | cons d ds => simp [strLt]
  | cons c cs ih =>
    intro b hne
    cases b with
    | nil => simp [strLt]
    | cons d ds =>
      rw [strLt, strLt]
      by_cases hcd : c < d
      · simp [hcd]
      · by_cases hdc : d < c
        · simp [hcd, hdc]
        · have hcd2 : c = d := le_antisymm (not_lt.mp hdc) (not_lt.mp hcd)
          subst hcd2
          have : cs ≠ ds := by intro h; exact hne (by rw [h])
          simpa [hcd, hdc] using ih ds this

lemma strLt_trans (a : Str) : ∀ b c, strLt a b = true → strLt b c = true → strLt a c = true := by
  induction a with
  | nil =>
    intro b c hab hbc
    cases c with
    | nil => cases b <;> simp_all [strLt]
    | cons e es => simp [strLt]
  | cons x xs ih =>
    intro b c hab hbc
    cases b with
    | nil => simp [strLt] at hab
    | cons y ys =>
      cases c with
      | nil => simp [strLt] at hbc
      | cons z zs =>
        rw [strLt] at hab hbc ⊢
        by_cases hxy : x < y
        · by_cases hyz : y < z
          · simp [lt_trans hxy hyz]
          · by_cases hzy : z < y
            · simp [hyz, hzy] at hbc
            · have : y = z := le_antisymm (not_lt.mp hzy) (not_lt.mp hyz)
              subst this
              simp [hxy]
        · by_cases hyx : y < x
          · simp [hxy, hyx] at hab
          · have : x = y := le_antisymm (not_lt.mp hyx) (not_lt.mp hxy)
            subst this
            simp only [if_neg (lt_irrefl x)] at hab
            by_cases hyz : x < z
            · simp [hyz]
            · by_cases hzy : z < x
              · simp [hyz, hzy] at hbc
              · simp only [if_neg hyz, if_neg hzy] at hbc ⊢
                exact ih ys zs hab hbc

lemma cmpFinding_le_iff (a b : Finding) :
    cmpFinding a b ≤ 0 ↔
      score b < score a ∨
      (score a = score b ∧ a.path ≠ b.path ∧ strLt a.path b.path = true) ∨
      (score a = score b ∧ a.path = b.path ∧ a.start_line ≤ b.start_line) := by
  rw [cmpFinding]
  by_cases hs : score a ≠ score b
  · simp only [if_pos hs]
    constructor
    · intro h
      left
      omega
    · intro h
      rcases h with h | ⟨h, _⟩ | ⟨h, _⟩ <;> omega
  · push_neg at hs
    simp only [if_neg (by omega : ¬score a ≠ score b)]
    by_cases hp : a.path ≠ b.path
    · simp only [if_pos hp]
      by_cases hlt : strLt a.path b.path = true
      · simp only [if_pos hlt]
        constructor
        · intro _; exact Or.inr (Or.inl ⟨hs, hp, hlt⟩)
        · intro _; omega
      · simp only [if_neg hlt]
        constructor
        · intro h; omega
        · intro h
          rcases h with h | ⟨_, _, h⟩ | ⟨_, h, _⟩
          · omega
          · exact absurd h hlt
          · exact absurd h hp
    · push_neg at hp
      simp only [if_neg (by simp [hp] : ¬a.path ≠ b.path)]
      constructor
      · intro h
        exact Or.inr (Or.inr ⟨hs, hp, by omega⟩)
      · intro h
        rcases h with h | ⟨_, hne, _⟩ | ⟨_, _, h⟩
        · omega
        · exact absurd hp hne
        · omega

instance : IsTotal Finding sortLe := by
  constructor
  intro a b
  rw [sortLe, sortLe, cmpFinding_le_iff, cmpFinding_le_iff]
  rcases lt_trichotomy (score a) (score b) with h | h | h
  · right; left; exact h
  · by_cases hp : a.path = b.path
    · rcases Int.le_total a.start_line b.start_line with hl | hl
      · exact Or.inl (Or.inr (Or.inr ⟨h, hp, hl⟩))
      · exact Or.inr (Or.inr (Or.inr ⟨h.symm, hp.symm, hl⟩))
    · rcases strLt_connex a.path b.path hp with hlt | hlt
      · exact Or.inl (Or.inr (Or.inl ⟨h, hp, hlt⟩))
      · exact Or.inr (Or.inr (Or.inl ⟨h.symm, Ne.symm hp, hlt⟩))
  · left; left; exact h

instance : IsTrans Finding sortLe := by
  constructor
  intro a b c hab hbc
  rw [sortLe, cmpFinding_le_iff] at hab hbc ⊢
  rcases hab with h1 | ⟨h1, h1p, h1lt⟩ | ⟨h1, h1p, h1le⟩ <;>
    rcases hbc with h2 | ⟨h2, h2p, h2lt⟩ | ⟨h2, h2p, h2le⟩
  · left; omega
  · left; omega
  · left; omega
  · left; omega
  · right; left
    have hlt3 := strLt_trans _ _ _ h1lt h2lt
    refine ⟨by omega, ?_, hlt3⟩
    intro hac
    rw [hac] at hlt3
    have hfalse := strLt_asymm _ _ hlt3
    simp [hlt3] at hfalse
  · right; left
    rw [← h2p]
    exact ⟨by omega, h1p, h1lt⟩
  · left; omega
  · right; left
    rw [h1p]
    exact ⟨by omega, h2p, h2lt⟩
  · right; right
    exact ⟨by omega, h1p.trans h2p, le_trans h1le h2le⟩

lemma catWeight_bounds (c : Category) : 1 ≤ catWeight c ∧ catWeight c ≤ 4 := by
  cases c <;> simp [catWeight]

lemma sev_dominates_score (a b : Finding)
    (h : sevWeight b.severity < sevWeight a.severity) : score b < score a := by
  have ha := catWeight_bounds a.category
  have hb := catWeight_bounds b.category
  rw [score, score]
  omega

lemma score_antitone_of_sortLe (a b : Finding) (h : sortLe a b) : score b ≤ score a := by
  rw [sortLe, cmpFinding_le_iff] at h
  rcases h with h | ⟨h, _⟩ | ⟨h, _⟩ <;> omega

lemma aggregate_top_pairwise (all : List Finding) (max : Nat) :
    ((aggregateFindings all max).top).Pairwise sortLe := by
  rw [aggregateFindings]
  exact ((List.sorted_insertionSort sortLe _).sublist (List.take_sublist _ _))

/-- C4.  In the list returned by `aggregateFindings`, severity strictly
dominates category: if the finding at position `i` has strictly greater
severity weight than the finding at position `j`, then `i` comes first
(`i < j`), whatever the two categories are.  In particular a low-severity
security finding ranks below a medium-severity docs finding (see the
witness). -/
theorem aggregateFindings_severity_order (all : List Finding) (max : Nat) (i j : Nat)
    (hi : i < ((aggregateFindings all max).top).length)
    (hj : j < ((aggregateFindings all max).top).length)
    (hsev : sevWeight (((aggregateFindings all max).top).get ⟨j, hj⟩).severity <
            sevWeight (((aggregateFindings all max).top).get ⟨i, hi⟩).severity) :
    i < j := by
  by_contra hij
  push_neg at hij
  rcases lt_or_eq_of_le hij with hlt | heq
  · have hpair := (List.pairwise_iff_get.mp (aggregate_top_pairwise all max))
      ⟨j, hj⟩ ⟨i, hi⟩ hlt
    have hle := score_antitone_of_sortLe _ _ hpair
    have hgt := sev_dominates_score _ _ hsev
    omega
  · subst heq
    exact lt_irrefl _ hsev

/-- A low-severity security finding. -/
def fLowSec : Finding :=
  { path := ['a'], start_line := 1, end_line := 1, category := .security,
    title := ['s'], rationale := [], suggestion := none, severity := .low }

/-- A medium-severity docs finding. -/
def fMedDocs : Finding :=
  { path := ['b'], start_line := 2, end_line := 2, category := .docs,
    title := ['d'], rationale := [], suggestion := none, severity := .medium }


/-- Witness for C4: aggregating a low/security finding with a medium/docs
finding puts the medium/docs one at position 0 and the low/security one at
position 1. -/
theorem aggregateFindings_severity_order_witness : (0 : Nat) < 1 :=
  aggregateFindings_severity_order [fLowSec, fMedDocs] 10 0 1 (by decide) (by decide) (by decide)

lemma lookupKey_cons_self (kv : Str × Finding) (rest : List (Str × Finding)) (k : Str)
    (h : kv.1 = k) : lookupKey (kv :: rest) k = some kv.2 := by
  rw [lookupKey, List.find?_cons_of_pos _ (by simp [h])]
  rfl

lemma lookupKey_cons_ne (kv : Str × Finding) (rest : List (Str × Finding)) (k : Str)
    (h : kv.1 ≠ k) : lookupKey (kv :: rest) k = lookupKey rest k := by
  rw [lookupKey, List.find?_cons_of_neg _ (by simp [h])]
  rfl

lemma lookupKey_mapSet_self (m : List (Str × Finding)) (k : Str) (v : Finding) :
    lookupKey (mapSet m k v) k = some v := by
  induction m with
  | nil => rw [mapSet]; exact lookupKey_cons_self (k, v) [] k rfl
  | cons kv rest ih =>
    rw [mapSet]
    by_cases h : kv.1 = k
    · rw [if_pos h]
      exact lookupKey_cons_self (kv.1, v) rest k h
    · rw [if_neg h]
      rw [show ((kv.1, kv.2) : Str × Finding) = kv from rfl]
      rw [lookupKey_cons_ne kv _ k h]
      exact ih

lemma lookupKey_mapSet_ne (m : List (Str × Finding)) (k k' : Str) (v : Finding)
    (h : k' ≠ k) : lookupKey (mapSet m k v) k' = lookupKey m k' := by
  induction m with
  | nil =>
    rw [mapSet]
    exact lookupKey_cons_ne (k, v) [] k' (Ne.symm h)
  | cons kv rest ih =>
    rw [mapSet]
    by_cases hk : kv.1 = k
    · rw [if_pos hk]
      by_cases hk' : kv.1 = k'
      · exact absurd (hk'.symm.trans hk) h
      · rw [lookupKey_cons_ne (kv.1, v) rest k' hk', lookupKey_cons_ne kv rest k' hk']
    · rw [if_neg hk]
      rw [show ((kv.1, kv.2) : Str × Finding) = kv from rfl]
      by_cases hk' : kv.1 = k'
      · rw [lookupKey_cons_self kv _ k' hk', lookupKey_cons_self kv rest k' hk']
      · rw [lookupKey_cons_ne kv _ k' hk', lookupKey_cons_ne kv rest k' hk']
        exact ih

lemma lookupKey_eq_none_iff (m : List (Str × Finding)) (k : Str) :
    lookupKey m k = none ↔ k ∉ m.map Prod.fst := by
  induction m with
  | nil => simp [lookupKey, List.find?]
  | cons kv rest ih =>
    by_cases h : kv.1 = k
    · rw [lookupKey_cons_self kv rest k h]
      simp [h]
    · rw [lookupKey_cons_ne kv rest k h, ih]
      simp only [List.map_cons, List.mem_cons, not_or]
      constructor
      · intro hh
        exact ⟨fun he => h he.symm, hh⟩
      · intro hh
        exact hh.2

lemma mapSet_of_not_mem (m : List (Str × Finding)) (k : Str) (v : Finding)
    (h : k ∉ m.map Prod.fst) : mapSet m k v = m ++ [(k, v)] := by
  induction m with
  | nil => simp [mapSet]
  | cons kv rest ih =>
    simp only [List.map_cons, List.mem_cons, not_or] at h
    rw [mapSet, if_neg (fun hh => h.1 hh.symm), ih h.2]
    rfl

lemma mapSet_keys_of_mem (m : List (Str × Finding)) (k : Str) (v : Finding)
    (h : k ∈ m.map Prod.fst) :
    (mapSet m k v).map Prod.fst = m.map Prod.fst ∧ (mapSet m k v).length = m.length := by
  induction m with
  | nil => simp at h
  | cons kv rest ih =>
    rw [mapSet]
    by_cases hk : kv.1 = k
    · simp [hk]
    · simp only [List.map_cons, List.mem_cons] at h
      rcases h with h | h
      · exact absurd h.symm hk
      · obtain ⟨h1, h2⟩ := ih h
        simp [hk, h1, h2]

lemma dedupeStep_fresh (m : List (Str × Finding)) (f : Finding)
    (h : dedupeKey f ∉ m.map Prod.fst) :
    dedupeStep m f = m ++ [(dedupeKey f, f)] := by
  rw [dedupeStep]
  rw [show lookupKey m (dedupeKey f) = none from (lookupKey_eq_none_iff m _).mpr h]
  exact mapSet_of_not_mem m _ f h

lemma lookup_fold_ne (l : List Finding) : ∀ (m : List (Str × Finding)) (k : Str),
    (∀ f ∈ l, dedupeKey f ≠ k) →
    lookupKey (l.foldl dedupeStep m) k = lookupKey m k := by
  induction l with
  | nil => intro m k _; rfl
  | cons f fs ih =>
    intro m k hne
    rw [List.foldl_cons,
      ih (dedupeStep m f) k (fun g hg => hne g (List.mem_cons_of_mem f hg))]
    have hfk : dedupeKey f ≠ k := hne f (List.mem_cons_self f fs)
    cases hl : lookupKey m (dedupeKey f) with
    | none =>
      rw [dedupeStep, hl]
      exact lookupKey_mapSet_ne m _ _ f hfk.symm
    | some ex =>
      rw [dedupeStep, hl]
      show lookupKey (if score f > score ex then mapSet m (dedupeKey f) f else m) k = _
      by_cases hs : score f > score ex
      · rw [if_pos hs]
        exact lookupKey_mapSet_ne m _ _ f hfk.symm
      · rw [if_neg hs]

lemma fold_fresh (l : List Finding) : ∀ (m : List (Str × Finding)),
    (l.map dedupeKey).Nodup → (∀ f ∈ l, dedupeKey f ∉ m.map Prod.fst) →
    (l.foldl dedupeStep m).map Prod.fst = m.map Prod.fst ++ l.map dedupeKey ∧
    (l.foldl dedupeStep m).length = m.length + l.length := by
  induction l with
  | nil => intro m _ _; simp
  | cons f fs ih =>
    intro m hnod hfresh
    simp only [List.map_cons, List.nodup_cons] at hnod
    rw [List.foldl_cons, dedupeStep_fresh m f (hfresh f (List.mem_cons_self f fs))]
    have hfresh' : ∀ g ∈ fs, dedupeKey g ∉ (m ++ [(dedupeKey f, f)]).map Prod.fst := by
      intro g hg
      simp only [List.map_append, List.mem_append, List.map_cons, List.map_nil,
        List.mem_singleton, not_or]
      exact ⟨hfresh g (List.mem_cons_of_mem f hg), by
        intro h
        exact hnod.1 (h ▸ List.mem_map_of_mem dedupeKey hg)⟩
    obtain ⟨h1, h2⟩ := ih (m ++ [(dedupeKey f, f)]) hnod.2 hfresh'
    constructor
    · rw [h1]; simp
    · rw [h2]; simp; omega

lemma mapSet_value_keys (m : List (Str × Finding)) (f : Finding)
    (hm : ∀ kv ∈ m, dedupeKey kv.2 = kv.1) :
    ∀ kv ∈ mapSet m (dedupeKey f) f, dedupeKey kv.2 = kv.1 := by
  induction m with
  | nil =>
    intro kv hkv
    simp only [mapSet, List.mem_singleton] at hkv
    subst hkv
    rfl
  | cons kv0 rest ih =>
    intro kv hkv
    rw [mapSet] at hkv
    by_cases h : kv0.1 = dedupeKey f
    · rw [if_pos h] at hkv
      rcases List.mem_cons.mp hkv with rfl | hkv
      · exact h.symm
      · exact hm kv (List.mem_cons_of_mem kv0 hkv)
    · rw [if_neg h] at hkv
      rcases List.mem_cons.mp hkv with rfl | hkv
      · exact hm _ (List.mem_cons_self _ rest)
      · exact ih (fun kv' hkv' => hm kv' (List.mem_cons_of_mem kv0 hkv')) kv hkv

lemma fold_value_keys (l : List Finding) : ∀ (m : List (Str × Finding)),
    (∀ kv ∈ m, dedupeKey kv.2 = kv.1) →
    ∀ kv ∈ l.foldl dedupeStep m, dedupeKey kv.2 = kv.1 := by
  induction l with
  | nil => intro m hm; exact hm
  | cons f fs ih =>
    intro m hm
    rw [List.foldl_cons]
    apply ih
    cases hl : lookupKey m (dedupeKey f) with
    | none =>
      rw [dedupeStep, hl]
      exact mapSet_value_keys m f hm
    | some ex =>
      rw [dedupeStep, hl]
      show ∀ kv ∈ (if score f > score ex then mapSet m (dedupeKey f) f else m),
        dedupeKey kv.2 = kv.1
      by_cases hs : score f > score ex
      · rw [if_pos hs]; exact mapSet_value_keys m f hm
      · rw [if_neg hs]; exact hm

lemma binding_unique (m : List (Str × Finding)) (hnod : (m.map Prod.fst).Nodup)
    (k : Str) (v1 v2 : Finding) (h1 : (k, v1) ∈ m) (h2 : (k, v2) ∈ m) : v1 = v2 := by
  induction m with
  | nil => simp at h1
  | cons kv rest ih =>
    simp only [List.map_cons, List.nodup_cons] at hnod
    rcases List.mem_cons.mp h1 with h1 | h1 <;> rcases List.mem_cons.mp h2 with h2 | h2
    · rw [← h2] at h1
      exact (Prod.mk.injEq _ _ _ _ ▸ h1 : k = k ∧ v1 = v2).2
    · exfalso
      apply hnod.1
      have hkk : kv.1 = k := by rw [← h1]
      rw [hkk]
      exact List.mem_map_of_mem Prod.fst h2
    · exfalso
      apply hnod.1
      have hkk : kv.1 = k := by rw [← h2]
      rw [hkk]
      exact List.mem_map_of_mem Prod.fst h1
    · exact ih hnod.2 h1 h2

lemma lookup_mem (m : List (Str × Finding)) (k : Str) (v : Finding)
    (h : lookupKey m k = some v) : (k, v) ∈ m := by
  induction m with
  | nil => simp [lookupKey, List.find?] at h
  | cons kv rest ih =>
    by_cases hk : kv.1 = k
    · rw [lookupKey_cons_self kv rest k hk] at h
      rw [Option.some_inj] at h
      have : (k, v) = kv := by
        rw [← h, ← hk]
      rw [this]
      exact List.mem_cons_self kv rest
    · rw [lookupKey_cons_ne kv rest k hk] at h
      exact List.mem_cons_of_mem kv (ih h)

/-- C6.  In `aggregateFindings`, when the input contains exactly one pair
of findings `a, b` agreeing on the dedupe key (all other findings have
pairwise-distinct keys, each different from that pair's key), and the two
scores differ, the pair collapses to a single output finding: the strictly
higher-scored one survives, the other is absent, and the output list is
exactly one shorter than the input (the `max` cap taken large enough not
to interfere). -/
theorem aggregateFindings_collapse (l₁ l₂ l₃ : List Finding) (a b : Finding) (max : Nat)
    (hkey : dedupeKey b = dedupeKey a)
    (hnod : ((l₁ ++ a :: l₂ ++ l₃).map dedupeKey).Nodup)
    (hscore : score a ≠ score b)
    (hlen : (l₁ ++ a :: l₂ ++ b :: l₃).length ≤ max) :
    (if score b > score a then b else a) ∈
      (aggregateFindings (l₁ ++ a :: l₂ ++ b :: l₃) max).top ∧
    (if score b > score a then a else b) ∉
      (aggregateFindings (l₁ ++ a :: l₂ ++ b :: l₃) max).top ∧
    ((aggregateFindings (l₁ ++ a :: l₂ ++ b :: l₃) max).top).length + 1 =
      (l₁ ++ a :: l₂ ++ b :: l₃).length := by
  -- decompose the nodup hypothesis
  have hmap : (l₁ ++ a :: l₂ ++ l₃).map dedupeKey =
      l₁.map dedupeKey ++ dedupeKey a :: (l₂.map dedupeKey ++ l₃.map dedupeKey) := by
    simp
  rw [hmap] at hnod
  have hnod0 := hnod
  rw [List.nodup_append] at hnod
  obtain ⟨hn1, hrest, hdisj⟩ := hnod
  rw [List.nodup_cons] at hrest
  obtain ⟨hka, hBC⟩ := hrest
  rw [List.nodup_append] at hBC
  obtain ⟨hn2, hn3, hdisjBC⟩ := hBC
  have h1 : ∀ f ∈ l₁, dedupeKey f ≠ dedupeKey a := by
    intro f hf he
    exact hdisj (List.mem_map_of_mem dedupeKey hf)
      (he ▸ List.mem_cons_self _ _)
  have h2 : ∀ f ∈ l₂, dedupeKey f ≠ dedupeKey a := by
    intro f hf he
    exact hka (he ▸ List.mem_append_left _ (List.mem_map_of_mem dedupeKey hf))
  have h3 : ∀ f ∈ l₃, dedupeKey f ≠ dedupeKey a := by
    intro f hf he
    exact hka (he ▸ List.mem_append_right _ (List.mem_map_of_mem dedupeKey hf))
  -- the four stages of the fold
  have hsplit : (l₁ ++ a :: l₂ ++ b :: l₃).foldl dedupeStep [] =
      l₃.foldl dedupeStep
        (dedupeStep (l₂.foldl dedupeStep (dedupeStep (l₁.foldl dedupeStep []) a)) b) := by
    simp [List.foldl_append]
  obtain ⟨hkeys1, hlen1⟩ := fold_fresh l₁ [] hn1 (by simp)
  have hkanotm1 : dedupeKey a ∉ (l₁.foldl dedupeStep []).map Prod.fst := by
    rw [hkeys1]
    simp only [List.map_nil, List.nil_append, List.mem_map]
    rintro ⟨f, hf, he⟩
    exact h1 f hf he
  have hm2eq : dedupeStep (l₁.foldl dedupeStep []) a =
      l₁.foldl dedupeStep [] ++ [(dedupeKey a, a)] :=
    dedupeStep_fresh _ a hkanotm1
  have hkeys2 : (dedupeStep (l₁.foldl dedupeStep []) a).map Prod.fst =
      l₁.map dedupeKey ++ [dedupeKey a] := by
    rw [hm2eq]
    simp [hkeys1]
  have hlen2 : (dedupeStep (l₁.foldl dedupeStep []) a).length = l₁.length + 1 := by
    rw [hm2eq]
    simp [hlen1]
  have hlook2 : lookupKey (dedupeStep (l₁.foldl dedupeStep []) a) (dedupeKey a) = some a := by
    rw [dedupeStep, (lookupKey_eq_none_iff _ _).mpr hkanotm1]
    exact lookupKey_mapSet_self _ _ a
  have hfresh2 : ∀ f ∈ l₂,
      dedupeKey f ∉ (dedupeStep (l₁.foldl dedupeStep []) a).map Prod.fst := by
    intro f hf
    rw [hkeys2]
    simp only [List.mem_append, List.mem_singleton, not_or]
    refine ⟨?_, h2 f hf⟩
    intro he
    exact hdisj he (List.mem_cons_of_mem _
      (List.mem_append_left _ (List.mem_map_of_mem dedupeKey hf)))
  obtain ⟨hkeys3, hlen3⟩ :=
    fold_fresh l₂ (dedupeStep (l₁.foldl dedupeStep []) a) hn2 hfresh2
  have hlook3 : lookupKey (l₂.foldl dedupeStep (dedupeStep (l₁.foldl dedupeStep []) a))
      (dedupeKey a) = some a := by
    rw [lookup_fold_ne l₂ _ _ h2, hlook2]
  -- stage four: inserting b
  set m3 := l₂.foldl dedupeStep (dedupeStep (l₁.foldl dedupeStep []) a) with hm3
  have hkainm3 : dedupeKey a ∈ m3.map Prod.fst := by
    rw [hkeys3, hkeys2]
    simp
  have hm4 : dedupeStep m3 b = if score b > score a then mapSet m3 (dedupeKey a) b else m3 := by
    rw [dedupeStep, hkey, hlook3]
  have hlook4 : lookupKey (dedupeStep m3 b) (dedupeKey a) =
      some (if score b > score a then b else a) := by
    rw [hm4]
    by_cases hbs : score b > score a
    · rw [if_pos hbs, if_pos hbs]
      exact lookupKey_mapSet_self m3 _ b
    · rw [if_neg hbs, if_neg hbs, hlook3]
  have hkeys4 : (dedupeStep m3 b).map Prod.fst = m3.map Prod.fst := by
    rw [hm4]
    by_cases hbs : score b > score a
    · rw [if_pos hbs]
      exact (mapSet_keys_of_mem m3 _ b hkainm3).1
    · rw [if_neg hbs]
  have hlen4 : (dedupeStep m3 b).length = m3.length := by
    rw [hm4]
    by_cases hbs : score b > score a
    · rw [if_pos hbs]
      exact (mapSet_keys_of_mem m3 _ b hkainm3).2
    · rw [if_neg hbs]
  have hfresh4 : ∀ g ∈ l₃, dedupeKey g ∉ (dedupeStep m3 b).map Prod.fst := by
    intro g hg
    rw [hkeys4, hkeys3, hkeys2]
    simp only [List.mem_append, List.mem_singleton, not_or]
    refine ⟨⟨?_, h3 g hg⟩, ?_⟩
    · intro he
      exact hdisj he (List.mem_cons_of_mem _
        (List.mem_append_right _ (List.mem_map_of_mem dedupeKey hg)))
    · intro he
      exact hdisjBC he (List.mem_map_of_mem dedupeKey hg)
  obtain ⟨hkeys5, hlen5⟩ := fold_fresh l₃ (dedupeStep m3 b) hn3 hfresh4
  have hlook5 : lookupKey (l₃.foldl dedupeStep (dedupeStep m3 b)) (dedupeKey a) =
      some (if score b > score a then b else a) := by
    rw [lookup_fold_ne l₃ _ _ h3, hlook4]
  have hkeysnodup : ((l₃.foldl dedupeStep (dedupeStep m3 b)).map Prod.fst).Nodup := by
    rw [hkeys5, hkeys4, hkeys3, hkeys2]
    simpa [List.append_assoc] using hnod0
  have hvk : ∀ kv ∈ l₃.foldl dedupeStep (dedupeStep m3 b), dedupeKey kv.2 = kv.1 := by
    have hwhole := fold_value_keys (l₁ ++ a :: l₂ ++ b :: l₃) [] (by simp)
    rw [hsplit] at hwhole
    exact hwhole
  set seen := l₃.foldl dedupeStep (dedupeStep m3 b) with hseen
  set w := if score b > score a then b else a with hw
  set lo := if score b > score a then a else b with hlo
  have hwlo : w ≠ lo := by
    intro he
    by_cases hbs : score b > score a
    · rw [hw, hlo, if_pos hbs, if_pos hbs] at he
      exact hscore (congrArg score he).symm
    · rw [hw, hlo, if_neg hbs, if_neg hbs] at he
      exact hscore (congrArg score he)
  have hklo : dedupeKey lo = dedupeKey a := by
    rw [hlo]
    by_cases hbs : score b > score a
    · rw [if_pos hbs]
    · rw [if_neg hbs, hkey]
  have hwmem : w ∈ seen.map Prod.snd :=
    List.mem_map.mpr ⟨(dedupeKey a, w), lookup_mem _ _ _ hlook5, rfl⟩
  have hlonot : lo ∉ seen.map Prod.snd := by
    intro hmem
    obtain ⟨kv, hkv, hkv2⟩ := List.mem_map.mp hmem
    have hk1 : kv.1 = dedupeKey a := by
      rw [← hvk kv hkv, hkv2, hklo]
    have hloin : (dedupeKey a, lo) ∈ seen := by
      rw [← hk1, ← hkv2]
      exact hkv
    exact hwlo (binding_unique seen hkeysnodup (dedupeKey a) w lo
      (lookup_mem _ _ _ hlook5) hloin)
  have hlenseen : seen.length = l₁.length + l₂.length + l₃.length + 1 := by
    rw [hlen5, hlen4, hlen3, hlen2]
    omega
  have hlenall : (l₁ ++ a :: l₂ ++ b :: l₃).length =
      l₁.length + l₂.length + l₃.length + 2 := by
    simp [List.length_append]
    omega
  have htop : (aggregateFindings (l₁ ++ a :: l₂ ++ b :: l₃) max).top =
      List.insertionSort sortLe (seen.map Prod.snd) := by
    rw [aggregateFindings]
    simp only
    rw [hsplit]
    apply List.take_of_length_le
    rw [(List.perm_insertionSort sortLe _).length_eq, List.length_map, hlenseen]
    omega
  refine ⟨?_, ?_, ?_⟩
  · rw [htop]
    exact (List.perm_insertionSort sortLe _).mem_iff.mpr hwmem
  · rw [htop]
    intro hmem
    exact hlonot ((List.perm_insertionSort sortLe _).mem_iff.mp hmem)
  · rw [htop, (List.perm_insertionSort sortLe _).length_eq, List.length_map,
      hlenseen, hlenall]

/-- A low/style finding colliding with `fDup2` on the dedupe key. -/
def fDup1 : Finding :=
  { path := ['a'], start_line := 1, end_line := 1, category := .style,
    title := ['t'], rationale := [], suggestion := none, severity := .low }

/-- A medium/security finding at the same path, line and title prefix. -/
def fDup2 : Finding :=
  { path := ['a'], start_line := 1, end_line := 2, category := .security,
    title := ['T'], rationale := [], suggestion := none, severity := .medium }

/-- Witness for C6: two findings at the same path, line and lowercased
title prefix but different severities collapse to the higher-scored one. -/
theorem aggregateFindings_collapse_witness :
    (if score fDup2 > score fDup1 then fDup2 else fDup1) ∈
      (aggregateFindings ([] ++ fDup1 :: [] ++ fDup2 :: []) 10).top ∧
    (if score fDup2 > score fDup1 then fDup1 else fDup2) ∉
      (aggregateFindings ([] ++ fDup1 :: [] ++ fDup2 :: []) 10).top ∧
    ((aggregateFindings ([] ++ fDup1 :: [] ++ fDup2 :: []) 10).top).length + 1 =
      ([] ++ fDup1 :: [] ++ fDup2 :: []).length :=
  aggregateFindings_collapse [] [] [] fDup1 fDup2 10 (by decide) (by decide)
    (by decide) (by decide)

lemma mem_intRange_iff (a b L : Int) : L ∈ intRange a b ↔ a ≤ L ∧ L ≤ b := by
  rw [intRange]
  constructor
  · intro h
    obtain ⟨i, hi, hL⟩ := List.mem_map.mp h
    rw [List.mem_range] at hi
    omega
  · intro h
    refine List.mem_map.mpr ⟨(L - a).toNat, ?_, ?_⟩
    · rw [List.mem_range]
      omega
    · omega

lemma intRange_nodup (a b : Int) : (intRange a b).Nodup := by
  rw [intRange]
  apply List.Nodup.map
  · intro i j h
    have h2 : a + (i : Int) = a + (j : Int) := h
    omega
  · exact List.nodup_range _

lemma flatMap_eq_nil_of_forall {α β : Type} (l : List α) (g : α → List β)
    (h : ∀ x ∈ l, g x = []) : l.flatMap g = [] := by
  induction l with
  | nil => rfl
  | cons x xs ih =>
    rw [List.flatMap_cons, h x (List.mem_cons_self x xs),
      ih (fun y hy => h y (List.mem_cons_of_mem x hy))]
    rfl

lemma flatMap_single {α β : Type} [DecidableEq α] (l : List α) (g : α → List β) (L0 : α)
    (hg : ∀ L, L ≠ L0 → g L = []) (hnd : l.Nodup) (hmem : L0 ∈ l) :
    l.flatMap g = g L0 := by
  induction l with
  | nil => simp at hmem
  | cons x xs ih =>
    rw [List.nodup_cons] at hnd
    rw [List.flatMap_cons]
    rcases List.mem_cons.mp hmem with rfl | hmem'
    · rw [flatMap_eq_nil_of_forall xs g (fun y hy => hg y (fun he => hnd.1 (he ▸ hy)))]
      simp
    · rw [hg x (fun he => hnd.1 (he ▸ hmem')), List.nil_append]
      exact ih hnd.2 hmem'

/-- C9.  The `runRules` driver confines findings to the clamped range:
every returned finding has `start_line = end_line` lying in
`[max 1 startLine, min lineCount endLine]` of the split source; and when a
rule set fires on exactly one line `L0`, any two scanned ranges containing
`L0` produce identical findings — widening the range beyond the pattern's
line yields nothing new.  The driver is the source's loop verbatim; the
individual pattern rules are abstracted as the `checkLine` parameter, so
both statements hold for every rule set, in particular the source's. -/
theorem runRules_range_confined :
    (∀ (checkLine : Str → Bool → List Str → Int → List RuleHit) (ctx : RuleCtx)
      (f : Finding), f ∈ runRulesWith checkLine ctx →
      f.start_line = f.end_line ∧
      max 1 ctx.startLine ≤ f.start_line ∧
      f.start_line ≤ min ((splitNl ctx.source).length : Int) ctx.endLine) ∧
    (∀ (checkLine : Str → Bool → List Str → Int → List RuleHit)
      (path source : Str) (ac : Bool) (L0 s1 e1 s2 e2 : Int),
      (∀ L, L ≠ L0 → checkLine path ac (splitNl source) L = []) →
      max 1 s1 ≤ L0 → L0 ≤ min ((splitNl source).length : Int) e1 →
      max 1 s2 ≤ L0 → L0 ≤ min ((splitNl source).length : Int) e2 →
      runRulesWith checkLine ⟨path, source, s1, e1, ac⟩ =
        runRulesWith checkLine ⟨path, source, s2, e2, ac⟩) := by
  constructor
  · intro checkLine ctx f hf
    rw [runRulesWith] at hf
    simp only [List.mem_flatMap, List.mem_map] at hf
    obtain ⟨L, hL, h, _, rfl⟩ := hf
    rw [mem_intRange_iff] at hL
    exact ⟨rfl, hL.1, hL.2⟩
  · intro checkLine path source ac L0 s1 e1 s2 e2 hg hs1 he1 hs2 he2
    rw [runRulesWith, runRulesWith]
    simp only
    rw [flatMap_single _ _ L0
        (fun L hL => by rw [hg L hL]; rfl) (intRange_nodup _ _)
        ((mem_intRange_iff _ _ _).mpr ⟨hs1, he1⟩),
      flatMap_single _ _ L0
        (fun L hL => by rw [hg L hL]; rfl) (intRange_nodup _ _)
        ((mem_intRange_iff _ _ _).mpr ⟨hs2, he2⟩)]

/-- A concrete rule hit, for evaluating the rule driver. -/
def hitSec : RuleHit :=
  { category := .security, severity := .high, title := ['k'], rationale := [],
    suggestion := some ['r'] }

/-- A concrete single-line rule set: fires only on line 2. -/
def checkAt2 : Str → Bool → List Str → Int → List RuleHit :=
  fun _ _ _ L => if L = 2 then [hitSec] else []

/-- A concrete rule context over a three-line file, scanning lines 1-2. -/
def ctxR : RuleCtx :=
  { path := ['p'], source := ['a','\n','b','\n','c'], startLine := 1, endLine := 2 }

/-- Witness for C9 at a one-rule rule set over a three-line file. -/
theorem runRules_range_confined_witness :
    (hitToFinding ['p'] 2 hitSec).start_line = (hitToFinding ['p'] 2 hitSec).end_line ∧
    max 1 ctxR.startLine ≤ (hitToFinding ['p'] 2 hitSec).start_line ∧
    (hitToFinding ['p'] 2 hitSec).start_line ≤
      min ((splitNl ctxR.source).length : Int) ctxR.endLine :=
  runRules_range_confined.1 checkAt2 ctxR (hitToFinding ['p'] 2 hitSec) (by decide)

instance : IsTotal FixPlan startGe := ⟨fun a b => Int.le_total b.start a.start⟩

instance : IsTrans FixPlan startGe := ⟨fun _ _ _ hab hbc => le_trans hbc hab⟩

lemma spliceFix_eq (lines : List Str) (f : FixPlan)
    (h1 : 1 ≤ f.start) (h2 : f.start ≤ f.fin) :
    spliceFix lines f =
      lines.take (f.start - 1).toNat ++ f.replacement ++ lines.drop f.fin.toNat := by
  show lines.take ((max 1 f.start - 1).toNat) ++ f.replacement ++
      lines.drop ((max 1 f.start - 1).toNat +
        ((max 1 f.fin - 1).toNat + 1 - (max 1 f.start - 1).toNat)) = _
  rw [max_eq_right h1, max_eq_right (le_trans h1 h2)]
  congr 1
  congr 1
  omega

lemma spliceFix_length_ge (lines : List Str) (f : FixPlan)
    (h1 : 1 ≤ f.start) (h2 : f.start ≤ f.fin) (h3 : f.fin ≤ (lines.length : Int)) :
    (f.start - 1).toNat ≤ (spliceFix lines f).length := by
  rw [spliceFix_eq lines f h1 h2]
  simp only [List.length_append, List.length_take, List.length_drop]
  omega

lemma spliceFix_take (lines : List Str) (f : FixPlan)
    (h1 : 1 ≤ f.start) (h2 : f.start ≤ f.fin) (h3 : f.fin ≤ (lines.length : Int))
    (n : Nat) (hn : n ≤ (f.start - 1).toNat) :
    (spliceFix lines f).take n = lines.take n := by
  rw [spliceFix_eq lines f h1 h2]
  have hA : (lines.take (f.start - 1).toNat).length = (f.start - 1).toNat := by
    rw [List.length_take]
    omega
  rw [show lines.take (f.start - 1).toNat ++ f.replacement ++ lines.drop f.fin.toNat
      = lines.take (f.start - 1).toNat ++ (f.replacement ++ lines.drop f.fin.toNat) by
    simp [List.append_assoc]]
  rw [List.take_append_eq_append_take, hA]
  rw [show n - (f.start - 1).toNat = 0 by omega]
  rw [List.take_zero, List.append_nil, List.take_take]
  rw [show min n (f.start - 1).toNat = n by omega]

lemma spliceSpec_splice (f : FixPlan) (asc : List FixPlan) : ∀ (lines : List Str) (pos : Nat),
    1 ≤ f.start → f.start ≤ f.fin → f.fin ≤ (lines.length : Int) →
    (∀ g ∈ asc, 1 ≤ g.start ∧ g.start ≤ g.fin ∧ g.fin < f.start) →
    List.Pairwise (fun p q => p.fin < q.start) asc →
    (pos : Int) ≤ f.start - 1 →
    (∀ g ∈ asc, (pos : Int) ≤ g.start - 1) →
    spliceSpec (spliceFix lines f) pos asc = spliceSpec lines pos (asc ++ [f]) := by
  induction asc with
  | nil =>
    intro lines pos hf1 hf2 hf3 _ _ hpos _
    rw [List.nil_append, spliceSpec, spliceSpec, spliceSpec]
    rw [spliceFix_eq lines f hf1 hf2]
    have hA : (lines.take (f.start - 1).toNat).length = (f.start - 1).toNat := by
      rw [List.length_take]
      omega
    rw [List.drop_append_eq_append_drop, List.drop_append_eq_append_drop,
      List.length_append, hA]
    rw [show pos - (f.start - 1).toNat = 0 by omega]
    rw [show pos - ((f.start - 1).toNat + f.replacement.length) = 0 by omega]
    rw [List.drop_zero, List.drop_zero, List.drop_take]
  | cons g rest ih =>
    intro lines pos hf1 hf2 hf3 hasc hpair hpos hposall
    obtain ⟨hg1, hg2, hg3⟩ := hasc g (List.mem_cons_self g rest)
    rw [List.cons_append, spliceSpec, spliceSpec]
    have hseg : ((spliceFix lines f).drop pos).take ((g.start - 1).toNat - pos) =
        (lines.drop pos).take ((g.start - 1).toNat - pos) := by
      rw [List.take_drop, List.take_drop]
      have hle : pos + ((g.start - 1).toNat - pos) ≤ (f.start - 1).toNat := by
        have := hposall g (List.mem_cons_self g rest)
        omega
      rw [spliceFix_take lines f hf1 hf2 hf3 _ hle]
    rw [hseg]
    rw [List.pairwise_cons] at hpair
    rw [ih lines g.fin.toNat hf1 hf2 hf3
      (fun r hr => hasc r (List.mem_cons_of_mem g hr))
      hpair.2
      (by omega)
      (fun r hr => by
        have ha := hpair.1 r hr
        have hb := (hasc r (List.mem_cons_of_mem g hr)).1
        omega)]

lemma applyDesc_spec (asc : List FixPlan) : ∀ (lines : List Str),
    List.Pairwise (fun p q => p.fin < q.start) asc →
    (∀ p ∈ asc, 1 ≤ p.start ∧ p.start ≤ p.fin ∧ p.fin ≤ (lines.length : Int)) →
    asc.reverse.foldl spliceFix lines = spliceSpec lines 0 asc := by
  induction asc using List.reverseRecOn with
  | nil => intro lines _ _; rw [spliceSpec]; rfl
  | append_singleton as f ih =>
    intro lines hpair hb
    obtain ⟨hf1, hf2, hf3⟩ := hb f (List.mem_append_right as (List.mem_singleton.mpr rfl))
    rw [List.pairwise_append] at hpair
    have hfa : ∀ p ∈ as, p.fin < f.start := fun p hp =>
      hpair.2.2 p hp f (List.mem_singleton.mpr rfl)
    have hstep : (as ++ [f]).reverse.foldl spliceFix lines =
        as.reverse.foldl spliceFix (spliceFix lines f) := by
      rw [List.reverse_append, List.reverse_singleton, List.singleton_append,
        List.foldl_cons]
    rw [hstep]
    have hb' : ∀ p ∈ as, 1 ≤ p.start ∧ p.start ≤ p.fin ∧
        p.fin ≤ ((spliceFix lines f).length : Int) := by
      intro p hp
      obtain ⟨hp1, hp2, _⟩ := hb p (List.mem_append_left _ hp)
      refine ⟨hp1, hp2, ?_⟩
      have hge := spliceFix_length_ge lines f hf1 hf2 hf3
      have hlt := hfa p hp
      omega
    rw [ih (spliceFix lines f) hpair.1 hb']
    exact spliceSpec_splice f as lines 0 hf1 hf2 hf3
      (fun g hg =>
        ⟨(hb g (List.mem_append_left _ hg)).1, (hb g (List.mem_append_left _ hg)).2.1,
          hfa g hg⟩)
      hpair.1
      (by omega)
      (fun g hg => by
        have := (hb g (List.mem_append_left _ hg)).1
        omega)

lemma sorted_perm_eq {R : FixPlan → FixPlan → Prop} :
    ∀ (l₁ l₂ : List FixPlan), l₁.Perm l₂ → l₁.Pairwise R → l₂.Pairwise R →
    (∀ a ∈ l₁, ∀ b ∈ l₁, R a b → R b a → a = b) → l₁ = l₂ := by
  intro l₁
  induction l₁ with
  | nil =>
    intro l₂ hperm _ _ _
    exact hperm.nil_eq
  | cons a t₁ ih =>
    intro l₂ hperm hp₁ hp₂ hanti
    cases l₂ with
    | nil => exact absurd hperm.symm (by simp [List.Perm])
    | cons b t₂ =>
      by_cases hab : a = b
      · subst hab
        rw [List.pairwise_cons] at hp₁ hp₂
        rw [ih t₂ hperm.cons_inv hp₁.2 hp₂.2
          (fun x hx y hy hr hr2 =>
            hanti x (List.mem_cons_of_mem a hx) y (List.mem_cons_of_mem a hy) hr hr2)]
      · exfalso
        have hain : a ∈ b :: t₂ := hperm.mem_iff.mp (List.mem_cons_self a t₁)
        have hbin : b ∈ a :: t₁ := hperm.mem_iff.mpr (List.mem_cons_self b t₂)
        rcases List.mem_cons.mp hain with h | hain'
        · exact hab h
        rcases List.mem_cons.mp hbin with h | hbin'
        · exact hab h.symm
        have hrab : R a b := (List.pairwise_cons.mp hp₁).1 b hbin'
        have hrba : R b a := (List.pairwise_cons.mp hp₂).1 a hain'
        exact hab (hanti a (List.mem_cons_self a t₁) b (List.mem_cons_of_mem a hbin')
          hrab hrba)

/-- C1.  For a file whose fix plans are pairwise non-overlapping (and
whose 1-based inclusive ranges lie within the file), the per-file body of
`applyFixesToDisk` — which splices plans in descending order of start
line — produces exactly the specification splice `spliceSpec`: each plan's
range `[start, fin]` is replaced by its replacement lines, and every
original line outside all edited ranges appears unchanged and in its
original relative order, regardless of whether each replacement is longer
or shorter than the range it replaces. -/
theorem applyFixesToFile_splices (lines : List Str) (fixes : List FixPlan)
    (hnov : List.Pairwise (fun p q => p.fin < q.start ∨ q.fin < p.start) fixes)
    (hb : ∀ p ∈ fixes, 1 ≤ p.start ∧ p.start ≤ p.fin ∧ p.fin ≤ (lines.length : Int)) :
    applyFixesToFile lines fixes = spliceSpec lines 0 (List.insertionSort startLe fixes) := by
  set asc := List.insertionSort startLe fixes with hascdef
  have hperm : asc.Perm fixes := List.perm_insertionSort startLe fixes
  have hbasc : ∀ p ∈ asc, 1 ≤ p.start ∧ p.start ≤ p.fin ∧ p.fin ≤ (lines.length : Int) :=
    fun p hp => hb p (hperm.mem_iff.mp hp)
  have hsorted : asc.Pairwise startLe := List.sorted_insertionSort startLe fixes
  have hsym : ∀ {x y : FixPlan},
      (x.fin < y.start ∨ y.fin < x.start) → (y.fin < x.start ∨ x.fin < y.start) :=
    fun h => h.symm
  have hnovasc : asc.Pairwise (fun p q => p.fin < q.start ∨ q.fin < p.start) :=
    (List.Perm.pairwise_iff hsym hperm).mpr hnov
  have hgap : asc.Pairwise (fun p q => p.fin < q.start) := by
    apply List.Pairwise.imp_of_mem ?_ (hsorted.and hnovasc)
    intro p q hp hq hpq
    obtain ⟨hle, hor⟩ := hpq
    rcases hor with h | h
    · exact h
    · have hq2 := (hbasc q hq).2.1
      rw [startLe] at hle
      omega
  have hdesc : List.insertionSort startGe fixes = asc.reverse := by
    apply sorted_perm_eq (R := startGe)
    · exact ((List.perm_insertionSort startGe fixes).trans hperm.symm).trans
        (List.reverse_perm asc).symm
    · exact List.sorted_insertionSort startGe fixes
    · rw [List.pairwise_reverse]
      exact hsorted
    · intro x hx y hy hxy hyx
      by_cases hxyeq : x = y
      · exact hxyeq
      · exfalso
        have hxf : x ∈ fixes := (List.perm_insertionSort startGe fixes).mem_iff.mp hx
        have hyf : y ∈ fixes := (List.perm_insertionSort startGe fixes).mem_iff.mp hy
        have hor := List.Pairwise.forall (fun {_ _} h => Or.symm h) hnov hxf hyf hxyeq
        have hbx := (hb x hxf).2.1
        have hby := (hb y hyf).2.1
        rw [startGe] at hxy hyx
        rcases hor with h | h <;> omega
  rw [applyFixesToFile, hdesc]
  exact applyDesc_spec asc lines hgap hbasc

/-- A twelve-line file. -/
def lines12 : List Str :=
  [['a'], ['b'], ['c'], ['d'], ['e'], ['f'], ['g'], ['h'], ['i'], ['j'], ['k'], ['l']]

/-- A plan replacing lines 5-6 with one line. -/
def fix56 : FixPlan :=
  { path := ['a'], start := 5, fin := 6, replacement := [['X']], title := [] }

/-- A plan replacing lines 10-12 with three lines. -/
def fix1012 : FixPlan :=
  { path := ['a'], start := 10, fin := 12, replacement := [['Y'], ['Y'], ['Z']], title := [] }

/-- Witness for C1 at the spec's example: a twelve-line file with a
shrinking fix at `[5,6]` and a same-size fix at `[10,12]`. -/
theorem applyFixesToFile_splices_witness :
    applyFixesToFile lines12 [fix56, fix1012] =
      spliceSpec lines12 0 (List.insertionSort startLe [fix56, fix1012]) :=
  applyFixesToFile_splices lines12 [fix56, fix1012] (by decide) (by decide)
